import Mathlib

/-!
Verification of the cutting-stock allocator of `pipe-optimizer`.

The embedded functions mirror the TypeScript source: `optimize` (the
Allocator), `aggregateDemands` (Demand Aggregation), `formatMm` and the
statistics and cut-pattern summary computed in `ResultSection` (Plan
Metrics).  Lengths are modelled as `Int` (all arithmetic in the source is
exact on integer millimetre values) and JavaScript `Map`s are modelled as
association lists in insertion order, which is the iteration order of a
JavaScript `Map`.
-/

namespace PipeOptimizer

/-- `interface Material` from the source. -/
structure Material where
  id : String
  name : String
  stockLengthMm : Int
deriving DecidableEq, Repr

/-- `interface Demand` from the source. -/
structure Demand where
  id : String
  project : String
  materialId : String
  lengthMm : Int
deriving DecidableEq, Repr

/-- `interface Pipe` from the source (a bin of the cutting plan). -/
structure Pipe where
  cuts : List Demand
  remainingMm : Int
  stockLengthMm : Int
  usableMm : Int
deriving DecidableEq, Repr

/-- `type CutPlan = Record<string, Pipe[]>`, in insertion order. -/
abbrev CutPlan := List (String × List Pipe)

/-- `const FIXED_WASTE = 110` (the spec's FIXED_TRIM). -/
def FIXED_WASTE : Int := 110

/-- `const KERF = 2`. -/
def KERF : Int := 2

/-- `new Map(materials.map(m => [m.id, m])).get(mid)`: for duplicate ids the
later entry wins, as in the JavaScript `Map` constructor. -/
def materialLookup (materials : List Material) (mid : String) : Option Material :=
  materials.foldl (fun acc m => if m.id = mid then some m else acc) none

/-- One step of building the `grouped` map of `optimize`: append `d` to the
entry for `d.materialId`, creating the entry at the end if absent. -/
def addToGroup : List (String × List Demand) → Demand → List (String × List Demand)
  | [], d => [(d.materialId, [d])]
  | e :: rest, d =>
    if e.1 = d.materialId then (e.1, e.2 ++ [d]) :: rest
    else e :: addToGroup rest d

/-- The `grouped` map of `optimize`: demands grouped by material id, keys in
first-seen order, each group in input order. -/
def groupByMaterial (demands : List Demand) : List (String × List Demand) :=
  demands.foldl addToGroup []

/-- Stable insertion of a piece into a list sorted by descending `lengthMm`:
the piece goes after every element of greater or equal length. -/
def insertPiece (d : Demand) : List Demand → List Demand
  | [] => [d]
  | x :: xs => if x.lengthMm < d.lengthMm then d :: x :: xs else x :: insertPiece d xs

/-- `[...pieces].sort((a, b) => b.lengthMm - a.lengthMm)`: the stable
descending sort required of `Array.prototype.sort`. -/
def sortDesc (pieces : List Demand) : List Demand :=
  pieces.foldl (fun acc d => insertPiece d acc) []

/-- One iteration of the best-fit scan: the source updates `(bestIdx,
bestRemaining)` when `pipe.remainingMm >= needed && pipe.remainingMm <
bestRemaining` (with `bestRemaining` initially `Infinity`). -/
def accBest (needed : Int) (i : Nat) (p : Pipe) : Option (Nat × Int) → Option (Nat × Int)
  | none => if needed ≤ p.remainingMm then some (i, p.remainingMm) else none
  | some (j, br) =>
    if needed ≤ p.remainingMm ∧ p.remainingMm < br then some (i, p.remainingMm)
    else some (j, br)

/-- The best-fit scan loop over `pipes`, carrying the index of the next pipe
and the best candidate so far. -/
def bestFitAux (needed : Int) : List Pipe → Nat → Option (Nat × Int) → Option (Nat × Int)
  | [], _, best => best
  | p :: ps, i, best => bestFitAux needed ps (i + 1) (accBest needed i p best)

/-- `bestIdx` after the scan loop of `optimize` (`none` models `-1`). -/
def findBestIdx (pipes : List Pipe) (needed : Int) : Option Nat :=
  (bestFitAux needed pipes 0 none).map Prod.fst

/-- `pipes[bestIdx].cuts.push(piece); pipes[bestIdx].remainingMm -= needed`. -/
def assignAt (piece : Demand) (needed : Int) : List Pipe → Nat → List Pipe
  | [], _ => []
  | p :: ps, 0 => { p with cuts := p.cuts ++ [piece], remainingMm := p.remainingMm - needed } :: ps
  | p :: ps, k + 1 => p :: assignAt piece needed ps k

/-- The body of the packing loop of `optimize` for one piece: skip pieces
longer than `usable`, otherwise assign to the best-fit bin or open a new one. -/
def placePiece (usable stockLen : Int) (pipes : List Pipe) (piece : Demand) : List Pipe :=
  if usable < piece.lengthMm then pipes
  else
    let needed := piece.lengthMm + KERF
    match findBestIdx pipes needed with
    | some i => assignAt piece needed pipes i
    | none => pipes ++ [⟨[piece], usable - needed, stockLen, usable⟩]

/-- The trailing-kerf refund of `optimize`: every pipe with at least one cut
gets `KERF` added back to `remainingMm`. -/
def refundKerf (p : Pipe) : Pipe :=
  if 0 < p.cuts.length then { p with remainingMm := p.remainingMm + KERF } else p

/-- The per-material body of `optimize`: sort descending, pack each piece,
then refund the trailing kerf. -/
def packMaterial (mat : Material) (pieces : List Demand) : List Pipe :=
  let usable := mat.stockLengthMm - FIXED_WASTE
  let packed := (sortDesc pieces).foldl (placePiece usable mat.stockLengthMm) []
  packed.map refundKerf

/-- `function optimize(materials, demands): CutPlan` from the source. -/
def optimize (materials : List Material) (demands : List Demand) : CutPlan :=
  (groupByMaterial demands).filterMap fun e =>
    (materialLookup materials e.1).map fun mat => (e.1, packMaterial mat e.2)

/-- `interface AggregatedDemand` from the source. -/
structure AggregatedDemand where
  key : String
  project : String
  materialId : String
  lengthMm : Int
  count : Nat
  ids : List String
deriving DecidableEq, Repr

/-- The composite key `` `${d.materialId}|${d.project}|${d.lengthMm}` ``. -/
def aggKey (d : Demand) : String :=
  d.materialId ++ "|" ++ d.project ++ "|" ++ toString d.lengthMm

/-- One step of `aggregateDemands`: bump the existing group for the key (kept
in place, as `Map.set` on an existing key keeps its position) or append a new
group at the end. -/
def addAgg : List AggregatedDemand → Demand → List AggregatedDemand
  | [], d => [⟨aggKey d, d.project, d.materialId, d.lengthMm, 1, [d.id]⟩]
  | a :: rest, d =>
    if a.key = aggKey d then { a with count := a.count + 1, ids := a.ids ++ [d.id] } :: rest
    else a :: addAgg rest d

/-- `function aggregateDemands(demands)` from the source. -/
def aggregateDemands (demands : List Demand) : List AggregatedDemand :=
  demands.foldl addAgg []

/-! ### Generic model of a JavaScript `Map` grouping fold

`groupByMaterial`, `aggregateDemands` and the cut-pattern counting of
`ResultSection` are all the same fold: look up the entry for a key, update it
in place, or append a fresh entry.  We prove the characterisation once for
the list-of-members form and transport it to each concrete fold. -/

/-- Insert one element into a grouping association list: the matching entry
(unique, kept in place) collects the element, otherwise a new entry is
appended. -/
def mapInsert {α κ : Type} [DecidableEq κ] (key : α → κ) :
    List (κ × List α) → α → List (κ × List α)
  | [], a => [(key a, [a])]
  | e :: rest, a =>
    if e.1 = key a then (e.1, e.2 ++ [a]) :: rest
    else e :: mapInsert key rest a

/-- Group a list by `key`, entries in first-seen key order. -/
def mapGroups {α κ : Type} [DecidableEq κ] (key : α → κ) (l : List α) : List (κ × List α) :=
  l.foldl (mapInsert key) []

/-- The distinct keys of `l` in first-seen order. -/
def firstSeen {α κ : Type} [DecidableEq κ] (key : α → κ) (l : List α) : List κ :=
  l.foldl (fun acc a => if key a ∈ acc then acc else acc ++ [key a]) []

/-- The canonical grouping of `l` by `key`: one entry per distinct key in
first-seen order, members in input order. -/
def groupsSpec {α κ : Type} [DecidableEq κ] (key : α → κ) (l : List α) : List (κ × List α) :=
  (firstSeen key l).map fun k => (k, l.filter fun a => decide (key a = k))

/-! ### Derived notions used by the claims -/

/-- Sorted by weakly decreasing `lengthMm`. -/
def SortedDesc (l : List Demand) : Prop :=
  l.Pairwise fun a b => b.lengthMm ≤ a.lengthMm

/-- Sum of the lengths of a list of cuts. -/
def sumLens (l : List Demand) : Int :=
  (l.map Demand.lengthMm).sum

/-- All cuts assigned across a list of pipes. -/
def joinCuts (pipes : List Pipe) : List Demand :=
  (pipes.map Pipe.cuts).flatten

/-- All bins of a plan, across materials. -/
def allPipes (plan : CutPlan) : List Pipe :=
  (plan.map Prod.snd).flatten

/-- The number of bins of a plan whose cut list contains `d`. -/
def binsContaining (plan : CutPlan) (d : Demand) : Nat :=
  (allPipes plan).countP fun p => decide (d ∈ p.cuts)

/-- Invariant of one pipe during the packing loop (before the trailing-kerf
refund): provenance of the frozen fields, at least one cut, every cut fits
`usableMm`, the remaining capacity equation with one kerf charged per cut,
and the `-KERF` lower bound. -/
def PipeOk (usable stockLen : Int) (p : Pipe) : Prop :=
  p.stockLengthMm = stockLen ∧ p.usableMm = usable ∧ p.cuts ≠ [] ∧
  (∀ c ∈ p.cuts, c.lengthMm ≤ usable) ∧
  p.remainingMm = usable - sumLens p.cuts - KERF * p.cuts.length ∧
  -KERF ≤ p.remainingMm

/-- Invariant of one bin of the returned plan (after the refund). -/
def PlanPipeOk (mat : Material) (p : Pipe) : Prop :=
  p.stockLengthMm = mat.stockLengthMm ∧
  p.usableMm = mat.stockLengthMm - FIXED_WASTE ∧
  p.cuts ≠ [] ∧
  (∀ c ∈ p.cuts, c.lengthMm ≤ p.usableMm) ∧
  0 ≤ p.remainingMm ∧
  p.stockLengthMm
    = FIXED_WASTE + sumLens p.cuts + KERF * ((p.cuts.length : Int) - 1) + p.remainingMm

/-! ### Plan Metrics (`ResultSection` stats) -/

/-- `pipe.cuts.reduce((sum, c) => sum + c.lengthMm, 0)`. -/
def cutSum (p : Pipe) : Int :=
  p.cuts.foldl (fun sum c => sum + c.lengthMm) 0

/-- The bins the stats loop of `ResultSection` visits: every plan entry whose
material id resolves in `materialMap` (`if (!mat) continue`). -/
def statsPipes (materials : List Material) (plan : CutPlan) : List Pipe :=
  ((plan.filter fun e => (materialLookup materials e.1).isSome).map Prod.snd).flatten

/-- `totalPipes` of `ResultSection`. -/
def totalPipes (materials : List Material) (plan : CutPlan) : Nat :=
  (statsPipes materials plan).length

/-- `totalStockMm` of `ResultSection`. -/
def totalStockMm (materials : List Material) (plan : CutPlan) : Int :=
  ((statsPipes materials plan).map Pipe.stockLengthMm).sum

/-- `totalUsedMm` of `ResultSection`. -/
def totalUsedMm (materials : List Material) (plan : CutPlan) : Int :=
  ((statsPipes materials plan).map cutSum).sum

/-- `totalWasteMm` of `ResultSection`. -/
def totalWasteMm (materials : List Material) (plan : CutPlan) : Int :=
  ((statsPipes materials plan).map Pipe.remainingMm).sum

/-- `const efficiency = totalStockMm > 0 ? totalUsedMm / totalStockMm * 100 : 0`,
exact rational arithmetic in place of JavaScript floats. -/
def efficiencyPct (materials : List Material) (plan : CutPlan) : ℚ :=
  if 0 < totalStockMm materials plan then
    (totalUsedMm materials plan : ℚ) / (totalStockMm materials plan : ℚ) * 100
  else 0

/-- The too-long filter of `ResultSection`:
`mat && d.lengthMm > mat.stockLengthMm - FIXED_WASTE`. -/
def tooLongB (materials : List Material) (d : Demand) : Bool :=
  match materialLookup materials d.materialId with
  | some mat => decide (mat.stockLengthMm - FIXED_WASTE < d.lengthMm)
  | none => false

/-- `tooLongAgg` of `ResultSection`: the aggregated unassignable demands,
recomputed from raw demands and materials. -/
def unassignable (materials : List Material) (demands : List Demand) : List AggregatedDemand :=
  aggregateDemands (demands.filter (tooLongB materials))

/-- All demand ids reported unassignable. -/
def unassignableIds (materials : List Material) (demands : List Demand) : List String :=
  ((unassignable materials demands).map AggregatedDemand.ids).flatten

/-! ### `formatMm` and the cut-pattern summary

JavaScript strings are modelled as `List Char`.  For integer `mm`,
`(mm / 1000).toFixed(3)` is exact and `` `${parseFloat(...)}` `` prints the
value without trailing fractional zeros. -/

/-- The decimal digit character of `n < 10`. -/
def digitChar (n : Nat) : Char := Char.ofNat (48 + n)

/-- JavaScript `String(n)` for a natural number. -/
def natDecimal (n : Nat) : List Char :=
  if n = 0 then ['0'] else (Nat.digits 10 n).reverse.map digitChar

/-- JavaScript `String(i)` for an integer. -/
def intDecimal (i : Int) : List Char :=
  if i < 0 then '-' :: natDecimal i.natAbs else natDecimal i.toNat

/-- Remove trailing `'0'` characters. -/
def stripZeros (l : List Char) : List Char :=
  (l.reverse.dropWhile fun c => c == '0').reverse

/-- The fractional part `.rrr` of `toFixed(3)` with trailing zeros removed by
`parseFloat`; `r < 1000`. -/
def frac3 (r : Nat) : List Char :=
  stripZeros [digitChar (r / 100), digitChar (r / 10 % 10), digitChar (r % 10)]

/-- `function formatMm(mm)` from the source, as the character list of the
produced string. -/
def formatMm (mm : Int) : List Char :=
  if 1000 ≤ mm then
    (natDecimal (mm / 1000).toNat
      ++ if (mm % 1000).toNat = 0 then [] else '.' :: frac3 (mm % 1000).toNat)
      ++ [' ', 'm']
  else intDecimal mm ++ [' ', 'm', 'm']

/-- `pipe.cuts.map(c => formatMm(c.lengthMm)).join(' + ')`. -/
def joinPlus : List (List Char) → List Char
  | [] => []
  | [t] => t
  | t :: t' :: ts => t ++ ' ' :: '+' :: ' ' :: joinPlus (t' :: ts)

/-- The pattern key of a bin's cut list. -/
def patternKey (cuts : List Demand) : List Char :=
  joinPlus (cuts.map fun c => formatMm c.lengthMm)

/-- `patternCounts.set(key, (patternCounts.get(key) ?? 0) + 1)`. -/
def bumpPattern : List (List Char × Nat) → List Char → List (List Char × Nat)
  | [], k => [(k, 1)]
  | e :: rest, k =>
    if e.1 = k then (e.1, e.2 + 1) :: rest
    else e :: bumpPattern rest k

/-- The per-material pattern count map of the cut summary of `ResultSection`. -/
def patternCounts (pipes : List Pipe) : List (List Char × Nat) :=
  pipes.foldl (fun acc p => bumpPattern acc (patternKey p.cuts)) []

/-- The ordered sequence of cut lengths of a bin. -/
def cutLens (p : Pipe) : List Int :=
  p.cuts.map Demand.lengthMm

/-! ### Views of `aggregateDemands` -/

/-- The `AggregatedDemand` record determined by a key and its member list
(fields of the first member, count and ids accumulated over all members). -/
def aggOf (g : String × List Demand) : AggregatedDemand :=
  match g.2 with
  | [] => ⟨g.1, "", "", 0, 0, []⟩
  | d :: _ => ⟨g.1, d.project, d.materialId, d.lengthMm, g.2.length, g.2.map Demand.id⟩

/-- The composite grouping triple of a demand. -/
def trip (d : Demand) : String × String × Int :=
  (d.materialId, d.project, d.lengthMm)

/-- `aggKey` as a function of the triple. -/
def aggKeyT (t : String × String × Int) : String :=
  t.1 ++ "|" ++ t.2.1 ++ "|" ++ toString t.2.2

/-- The aggregation contract in the spec's words: one group per distinct
`(materialId, project, lengthMm)` triple in first-seen order, with the count
of demands bearing the triple and their ids in input order. -/
def specAggregate (demands : List Demand) :
    List ((String × String × Int) × Nat × List String) :=
  (firstSeen trip demands).map fun t =>
    (t, (demands.filter fun d => decide (trip d = t)).length,
        (demands.filter fun d => decide (trip d = t)).map Demand.id)

/-! ## Lemmas on the generic grouping fold -/

section Grouping

variable {α κ : Type} [DecidableEq κ] (key : α → κ)

theorem firstSeen_step (l : List α) (a : α) :
    firstSeen key (l ++ [a])
      = if key a ∈ firstSeen key l then firstSeen key l else firstSeen key l ++ [key a] := by
  simp [firstSeen, List.foldl_append]

theorem mem_firstSeen_aux (l : List α) :
    ∀ acc k, k ∈ l.foldl (fun acc a => if key a ∈ acc then acc else acc ++ [key a]) acc
      ↔ k ∈ acc ∨ ∃ a ∈ l, key a = k := by
  induction l with
  | nil => simp
  | cons b t ih =>
    intro acc k
    simp only [List.foldl_cons, ih]
    by_cases hb : key b ∈ acc
    · simp only [if_pos hb, List.mem_cons]
      constructor
      · rintro (h | ⟨a, ha, hk⟩)
        · exact Or.inl h
        · exact Or.inr ⟨a, Or.inr ha, hk⟩
      · rintro (h | ⟨a, ha | ha, hk⟩)
        · exact Or.inl h
        · exact Or.inl (by rw [← hk, ha]; exact hb)
        · exact Or.inr ⟨a, ha, hk⟩
    · simp only [if_neg hb, List.mem_append, List.mem_singleton, List.mem_cons]
      constructor
      · rintro ((h | h) | ⟨a, ha, hk⟩)
        · exact Or.inl h
        · rcases h with h | h
          · exact Or.inr ⟨b, Or.inl rfl, h.symm⟩
          · simp at h
        · exact Or.inr ⟨a, Or.inr ha, hk⟩
      · rintro (h | ⟨a, ha | ha, hk⟩)
        · exact Or.inl (Or.inl h)
        · exact Or.inl (Or.inr (Or.inl (by rw [← hk, ha])))
        · exact Or.inr ⟨a, ha, hk⟩

theorem mem_firstSeen (l : List α) (k : κ) :
    k ∈ firstSeen key l ↔ ∃ a ∈ l, key a = k := by
  simpa using mem_firstSeen_aux key l [] k

theorem firstSeen_nodup (l : List α) : (firstSeen key l).Nodup := by
  suffices h : ∀ acc : List κ, acc.Nodup →
      (l.foldl (fun acc a => if key a ∈ acc then acc else acc ++ [key a]) acc).Nodup by
    exact h [] List.nodup_nil
  induction l with
  | nil => intro acc h; simpa using h
  | cons b t ih =>
    intro acc h
    simp only [List.foldl_cons]
    by_cases hb : key b ∈ acc
    · simpa [if_pos hb] using ih acc h
    · refine ih _ ?_
      rw [if_neg hb, List.nodup_append]
      refine ⟨h, List.nodup_singleton _, ?_⟩
      intro x hx hx'
      rw [List.mem_singleton] at hx'
      exact hb (hx' ▸ hx)

theorem mapInsert_of_mem {a : α} (K : List κ)
    (hK : K.Nodup) (hmem : key a ∈ K) (f : κ → List α) :
    mapInsert key (K.map fun k => (k, f k)) a
      = K.map fun k => (k, f k ++ if key a = k then [a] else []) := by
  induction K with
  | nil => simp at hmem
  | cons k0 t ih =>
    rcases List.nodup_cons.mp hK with ⟨hk0t, ht⟩
    by_cases hk : k0 = key a
    · subst hk
      simp only [List.map_cons, mapInsert, if_pos rfl, if_true]
      congr 1
      refine (List.map_congr_left ?_).symm
      intro k hk'
      have hne : ¬ key a = k := fun he => hk0t (he ▸ hk')
      simp [hne]
    · have hmem' : key a ∈ t := by
        rcases List.mem_cons.mp hmem with h | h
        · exact absurd h.symm hk
        · exact h
      simp only [List.map_cons, mapInsert, if_neg hk]
      rw [ih ht hmem']
      have : ¬ key a = k0 := fun h => hk h.symm
      simp [this]

theorem mapInsert_of_not_mem {a : α} (K : List κ)
    (hmem : key a ∉ K) (f : κ → List α) :
    mapInsert key (K.map fun k => (k, f k)) a
      = (K.map fun k => (k, f k)) ++ [(key a, [a])] := by
  induction K with
  | nil => simp [mapInsert]
  | cons k0 t ih =>
    have hk : ¬ k0 = key a := fun h => hmem (h ▸ List.mem_cons_self k0 t)
    simp only [List.map_cons, mapInsert, if_neg hk, List.cons_append]
    congr 1
    exact ih fun h => hmem (List.mem_cons_of_mem _ h)

theorem groupsSpec_step (l : List α) (a : α) :
    mapInsert key (groupsSpec key l) a = groupsSpec key (l ++ [a]) := by
  unfold groupsSpec
  rw [firstSeen_step]
  by_cases hmem : key a ∈ firstSeen key l
  · rw [if_pos hmem,
      mapInsert_of_mem key _ (firstSeen_nodup key l) hmem
        (fun k => l.filter fun x => decide (key x = k))]
    refine List.map_congr_left ?_
    intro k hk
    simp only [List.filter_append, List.filter_cons, List.filter_nil]
    by_cases h : key a = k <;> simp [h]
  · rw [if_neg hmem,
      mapInsert_of_not_mem key _ hmem
        (fun k => l.filter fun x => decide (key x = k))]
    rw [List.map_append]
    congr 1
    · refine List.map_congr_left ?_
      intro k hk
      have : ¬ key a = k := fun h => hmem (h ▸ hk)
      simp [List.filter_append, this]
    · have hnil : (l.filter fun x => decide (key x = key a)) = [] := by
        rw [List.filter_eq_nil_iff]
        intro x hx hdec
        exact hmem ((mem_firstSeen key l (key a)).mpr ⟨x, hx, by simpa using hdec⟩)
      simp [List.filter_append, hnil]

theorem mapGroups_eq_groupsSpec (l : List α) :
    mapGroups key l = groupsSpec key l := by
  suffices h : ∀ t s : List α,
      t.foldl (mapInsert key) (groupsSpec key s) = groupsSpec key (s ++ t) by
    have := h l []
    simpa [mapGroups, groupsSpec, firstSeen] using this
  intro t
  induction t with
  | nil => intro s; simp
  | cons b t ih =>
    intro s
    simp only [List.foldl_cons, groupsSpec_step]
    have := ih (s ++ [b])
    simpa using this

theorem mem_mapGroups (l : List α) (e : κ × List α) :
    e ∈ mapGroups key l
      ↔ e.1 ∈ firstSeen key l ∧ e.2 = l.filter fun a => decide (key a = e.1) := by
  rw [mapGroups_eq_groupsSpec]
  unfold groupsSpec
  constructor
  · intro h
    rcases List.mem_map.mp h with ⟨k, hk, he⟩
    cases he
    exact ⟨hk, rfl⟩
  · rintro ⟨h1, h2⟩
    refine List.mem_map.mpr ⟨e.1, h1, ?_⟩
    rw [← h2]

theorem mapGroups_keys (l : List α) :
    (mapGroups key l).map Prod.fst = firstSeen key l := by
  rw [mapGroups_eq_groupsSpec]
  simp [groupsSpec, List.map_map, Function.comp_def]

theorem mapGroups_members_ne_nil (l : List α) (e : κ × List α)
    (he : e ∈ mapGroups key l) : e.2 ≠ [] := by
  rcases (mem_mapGroups key l e).mp he with ⟨h1, h2⟩
  rcases (mem_firstSeen key l e.1).mp h1 with ⟨a, ha, hk⟩
  intro hnil
  have : a ∈ e.2 := h2 ▸ List.mem_filter.mpr ⟨ha, by simpa using hk⟩
  simp [hnil] at this

end Grouping

/-! ## The `grouped` map of `optimize` -/

theorem addToGroup_eq_mapInsert (acc : List (String × List Demand)) (d : Demand) :
    addToGroup acc d = mapInsert Demand.materialId acc d := by
  induction acc with
  | nil => rfl
  | cons e rest ih => simp only [addToGroup, mapInsert, ih]

theorem groupByMaterial_eq_mapGroups (demands : List Demand) :
    groupByMaterial demands = mapGroups Demand.materialId demands := by
  unfold groupByMaterial mapGroups
  have h : addToGroup = mapInsert Demand.materialId :=
    funext fun acc => funext fun d => addToGroup_eq_mapInsert acc d
  rw [h]

theorem mem_groupByMaterial (demands : List Demand) (e : String × List Demand) :
    e ∈ groupByMaterial demands
      ↔ e.1 ∈ firstSeen Demand.materialId demands
        ∧ e.2 = demands.filter fun d => decide (d.materialId = e.1) := by
  rw [groupByMaterial_eq_mapGroups]
  exact mem_mapGroups _ demands e

/-! ## `materialLookup` -/

theorem materialLookup_aux (materials : List Material) (mid : String) :
    ∀ acc m, materials.foldl (fun acc m => if m.id = mid then some m else acc) acc = some m →
      (m ∈ materials ∧ m.id = mid) ∨ acc = some m := by
  induction materials with
  | nil => intro acc m h; exact Or.inr h
  | cons b t ih =>
    intro acc m h
    simp only [List.foldl_cons] at h
    rcases ih _ m h with ⟨hm, hid⟩ | hacc
    · exact Or.inl ⟨List.mem_cons_of_mem _ hm, hid⟩
    · by_cases hb : b.id = mid
      · rw [if_pos hb] at hacc
        cases hacc
        exact Or.inl ⟨List.mem_cons_self _ _, hb⟩
      · rw [if_neg hb] at hacc
        exact Or.inr hacc

theorem materialLookup_some (materials : List Material) (mid : String) (m : Material)
    (h : materialLookup materials mid = some m) : m ∈ materials ∧ m.id = mid := by
  rcases materialLookup_aux materials mid none m h with h' | h'
  · exact h'
  · cases h'

/-! ## Membership in the plan returned by `optimize` -/

theorem mem_optimize (materials : List Material) (demands : List Demand)
    (e : String × List Pipe) :
    e ∈ optimize materials demands
      ↔ ∃ mat, materialLookup materials e.1 = some mat
          ∧ (∃ d ∈ demands, d.materialId = e.1)
          ∧ e.2 = packMaterial mat (demands.filter fun d => decide (d.materialId = e.1)) := by
  unfold optimize
  rw [List.mem_filterMap]
  constructor
  · rintro ⟨a, ha, hf⟩
    rcases Option.map_eq_some'.mp hf with ⟨mat, hmat, he⟩
    rcases (mem_groupByMaterial demands a).mp ha with ⟨hk, hg⟩
    have h1 : e.1 = a.1 := by rw [← he]
    refine ⟨mat, h1 ▸ hmat, ?_, ?_⟩
    · rcases (mem_firstSeen Demand.materialId demands a.1).mp hk with ⟨d, hd, hdk⟩
      exact ⟨d, hd, h1 ▸ hdk⟩
    · rw [← he]
      simp only
      rw [hg]
  · rintro ⟨mat, hmat, ⟨d, hd, hdk⟩, he⟩
    refine ⟨(e.1, demands.filter fun d => decide (d.materialId = e.1)), ?_, ?_⟩
    · exact (mem_groupByMaterial demands _).mpr
        ⟨(mem_firstSeen Demand.materialId demands e.1).mpr ⟨d, hd, hdk⟩, rfl⟩
    · simp only [hmat, Option.map_some']
      rw [← he]

theorem optimize_keys (materials : List Material) (demands : List Demand) :
    (optimize materials demands).map Prod.fst
      = ((groupByMaterial demands).filter fun a =>
          (materialLookup materials a.1).isSome).map Prod.fst := by
  unfold optimize
  induction groupByMaterial demands with
  | nil => rfl
  | cons a t ih =>
    simp only [List.filterMap_cons, List.filter_cons]
    rcases h : materialLookup materials a.1 with _ | mat
    · simpa [h] using ih
    · simpa [h] using ih

theorem optimize_keys_nodup (materials : List Material) (demands : List Demand) :
    ((optimize materials demands).map Prod.fst).Nodup := by
  rw [optimize_keys]
  refine List.Nodup.sublist (List.Sublist.map _ (List.filter_sublist _)) ?_
  rw [groupByMaterial_eq_mapGroups, mapGroups_keys]
  exact firstSeen_nodup _ demands

/-! ## The best-fit scan of `optimize` -/

theorem bestFitAux_none (needed : Int) (ps : List Pipe) :
    ∀ (i : Nat) (best : Option (Nat × Int)),
      bestFitAux needed ps i best = none
        ↔ best = none ∧ ∀ p ∈ ps, p.remainingMm < needed := by
  induction ps with
  | nil => intro i best; simp [bestFitAux]
  | cons p0 t ih =>
    intro i best
    simp only [bestFitAux, ih]
    cases best with
    | none =>
      by_cases h : needed ≤ p0.remainingMm
      · simp only [accBest, if_pos h]
        constructor
        · rintro ⟨h1, _⟩
          cases h1
        · rintro ⟨_, hall⟩
          exact absurd (hall p0 (List.mem_cons_self _ _)) (not_lt.mpr h)
      · simp only [accBest, if_neg h]
        constructor
        · rintro ⟨_, hall⟩
          refine ⟨trivial, ?_⟩
          intro p hp
          rcases List.mem_cons.mp hp with hp | hp
          · exact hp ▸ lt_of_not_le h
          · exact hall p hp
        · rintro ⟨_, hall⟩
          exact ⟨trivial, fun p hp => hall p (List.mem_cons_of_mem _ hp)⟩
    | some x =>
      constructor
      · rintro ⟨h1, _⟩
        rcases x with ⟨j0, b0⟩
        simp only [accBest] at h1
        by_cases h : needed ≤ p0.remainingMm ∧ p0.remainingMm < b0 <;> simp [h] at h1
      · rintro ⟨h1, _⟩
        cases h1

theorem bestFitAux_mono (needed : Int) (ps : List Pipe) :
    ∀ (i j0 j : Nat) (b0 br : Int),
      bestFitAux needed ps i (some (j0, b0)) = some (j, br) → br ≤ b0 := by
  induction ps with
  | nil =>
    intro i j0 j b0 br h
    simp only [bestFitAux] at h
    cases h
    exact le_refl _
  | cons p0 t ih =>
    intro i j0 j b0 br h
    simp only [bestFitAux, accBest] at h
    by_cases hc : needed ≤ p0.remainingMm ∧ p0.remainingMm < b0
    · rw [if_pos hc] at h
      exact le_of_lt (lt_of_le_of_lt (ih _ _ _ _ _ h) hc.2)
    · rw [if_neg hc] at h
      exact ih _ _ _ _ _ h

theorem bestFitAux_replace (needed : Int) (ps : List Pipe) :
    ∀ (i j0 j : Nat) (b0 br : Int),
      bestFitAux needed ps i (some (j0, b0)) = some (j, br) →
      (j = j0 ∧ br = b0) ∨ br < b0 := by
  induction ps with
  | nil =>
    intro i j0 j b0 br h
    simp only [bestFitAux] at h
    cases h
    exact Or.inl ⟨rfl, rfl⟩
  | cons p0 t ih =>
    intro i j0 j b0 br h
    simp only [bestFitAux, accBest] at h
    by_cases hc : needed ≤ p0.remainingMm ∧ p0.remainingMm < b0
    · rw [if_pos hc] at h
      exact Or.inr (lt_of_le_of_lt (bestFitAux_mono needed t _ _ _ _ _ h) hc.2)
    · rw [if_neg hc] at h
      exact ih _ _ _ _ _ h

theorem bestFitAux_adequate (needed : Int) (ps : List Pipe) :
    ∀ (i : Nat) (best : Option (Nat × Int)) (j : Nat) (br : Int),
      (∀ j0 b0, best = some (j0, b0) → needed ≤ b0) →
      bestFitAux needed ps i best = some (j, br) → needed ≤ br := by
  induction ps with
  | nil =>
    intro i best j br hbest h
    simp only [bestFitAux] at h
    exact hbest j br h
  | cons p0 t ih =>
    intro i best j br hbest h
    simp only [bestFitAux] at h
    refine ih _ _ _ _ ?_ h
    intro j0 b0 hb
    cases best with
    | none =>
      simp only [accBest] at hb
      by_cases hc : needed ≤ p0.remainingMm
      · rw [if_pos hc] at hb
        cases hb
        exact hc
      · rw [if_neg hc] at hb
        cases hb
    | some x =>
      rcases x with ⟨j1, b1⟩
      simp only [accBest] at hb
      by_cases hc : needed ≤ p0.remainingMm ∧ p0.remainingMm < b1
      · rw [if_pos hc] at hb
        cases hb
        exact hc.1
      · rw [if_neg hc] at hb
        cases hb
        exact hbest _ _ rfl

theorem bestFitAux_min (needed : Int) (ps : List Pipe) :
    ∀ (i : Nat) (best : Option (Nat × Int)) (j : Nat) (br : Int),
      bestFitAux needed ps i best = some (j, br) →
      ∀ (k : Nat) (p : Pipe), ps[k]? = some p → needed ≤ p.remainingMm →
        br ≤ p.remainingMm := by
  induction ps with
  | nil =>
    intro i best j br h k p hk
    simp at hk
  | cons p0 t ih =>
    intro i best j br h k p hk hp
    simp only [bestFitAux] at h
    cases k with
    | zero =>
      rw [List.getElem?_cons_zero] at hk
      cases hk
      have hb' : ∃ j' b', accBest needed i p0 best = some (j', b') ∧ b' ≤ p0.remainingMm := by
        cases best with
        | none =>
          simp only [accBest, if_pos hp]
          exact ⟨i, p0.remainingMm, rfl, le_refl _⟩
        | some x =>
          rcases x with ⟨j1, b1⟩
          simp only [accBest]
          by_cases hc : needed ≤ p0.remainingMm ∧ p0.remainingMm < b1
          · rw [if_pos hc]
            exact ⟨i, p0.remainingMm, rfl, le_refl _⟩
          · rw [if_neg hc]
            refine ⟨j1, b1, rfl, ?_⟩
            rcases not_and_or.mp hc with hc' | hc'
            · exact absurd hp hc'
            · exact le_of_not_lt hc'
      rcases hb' with ⟨j', b', hb', hble⟩
      rw [hb'] at h
      exact le_trans (bestFitAux_mono needed t _ _ _ _ _ h) hble
    | succ k' =>
      rw [List.getElem?_cons_succ] at hk
      exact ih _ _ _ _ h k' p hk hp

theorem bestFitAux_origin (needed : Int) (ps : List Pipe) :
    ∀ (i : Nat) (best : Option (Nat × Int)) (j : Nat) (br : Int),
      bestFitAux needed ps i best = some (j, br) →
      best = some (j, br) ∨ ∃ (k : Nat) (p : Pipe), ps[k]? = some p ∧ j = i + k ∧ p.remainingMm = br := by
  induction ps with
  | nil =>
    intro i best j br h
    simp only [bestFitAux] at h
    exact Or.inl h
  | cons p0 t ih =>
    intro i best j br h
    simp only [bestFitAux] at h
    rcases ih _ _ _ _ h with hb | ⟨k, p, hk, hj, hrem⟩
    · cases best with
      | none =>
        simp only [accBest] at hb
        by_cases hc : needed ≤ p0.remainingMm
        · rw [if_pos hc] at hb
          cases hb
          exact Or.inr ⟨0, p0, List.getElem?_cons_zero, by omega, rfl⟩
        · rw [if_neg hc] at hb
          cases hb
      | some x =>
        rcases x with ⟨j1, b1⟩
        simp only [accBest] at hb
        by_cases hc : needed ≤ p0.remainingMm ∧ p0.remainingMm < b1
        · rw [if_pos hc] at hb
          cases hb
          exact Or.inr ⟨0, p0, List.getElem?_cons_zero, by omega, rfl⟩
        · rw [if_neg hc] at hb
          exact Or.inl hb
    · exact Or.inr ⟨k + 1, p, by simpa using hk, by omega, hrem⟩

theorem bestFitAux_strict (needed : Int) (ps : List Pipe) :
    ∀ (i : Nat) (best : Option (Nat × Int)) (j : Nat) (br : Int),
      (∀ j0 b0, best = some (j0, b0) → j0 < i) →
      bestFitAux needed ps i best = some (j, br) →
      ∀ (k : Nat) (p : Pipe), ps[k]? = some p → i + k < j → needed ≤ p.remainingMm →
        br < p.remainingMm := by
  induction ps with
  | nil =>
    intro i best j br hinv h k p hk hlt hp
    simp only [bestFitAux] at h
    exact absurd (hinv j br h) (by omega)
  | cons p0 t ih =>
    intro i best j br hinv h k p hk hlt hp
    simp only [bestFitAux] at h
    have hinv' : ∀ j0 b0, accBest needed i p0 best = some (j0, b0) → j0 < i + 1 := by
      intro j0 b0 hb
      cases best with
      | none =>
        simp only [accBest] at hb
        by_cases hc : needed ≤ p0.remainingMm
        · rw [if_pos hc] at hb; cases hb; omega
        · rw [if_neg hc] at hb; cases hb
      | some x =>
        rcases x with ⟨j1, b1⟩
        simp only [accBest] at hb
        by_cases hc : needed ≤ p0.remainingMm ∧ p0.remainingMm < b1
        · rw [if_pos hc] at hb; cases hb; omega
        · rw [if_neg hc] at hb
          cases hb
          exact lt_trans (hinv _ _ rfl) (by omega)
    cases k with
    | zero =>
      rw [List.getElem?_cons_zero] at hk
      cases hk
      have hij : i < j := by omega
      cases best with
      | none =>
        rw [show accBest needed i p0 none = some (i, p0.remainingMm) by
          simp [accBest, if_pos hp]] at h
        rcases bestFitAux_replace needed t _ _ _ _ _ h with ⟨hj, _⟩ | hlt'
        · omega
        · exact hlt'
      | some x =>
        rcases x with ⟨j1, b1⟩
        simp only [accBest] at h
        by_cases hc : needed ≤ p0.remainingMm ∧ p0.remainingMm < b1
        · rw [if_pos hc] at h
          rcases bestFitAux_replace needed t _ _ _ _ _ h with ⟨hj, _⟩ | hlt'
          · omega
          · exact hlt'
        · rw [if_neg hc] at h
          have hb1 : b1 ≤ p0.remainingMm := by
            rcases not_and_or.mp hc with hc' | hc'
            · exact absurd hp hc'
            · exact le_of_not_lt hc'
          rcases bestFitAux_replace needed t _ _ _ _ _ h with ⟨hj, hbr⟩ | hlt'
          · have : j1 < i := hinv _ _ rfl
            omega
          · exact lt_of_lt_of_le hlt' hb1
    | succ k' =>
      rw [List.getElem?_cons_succ] at hk
      exact ih _ _ _ _ hinv' h k' p hk (by omega) hp

theorem findBestIdx_none (pipes : List Pipe) (needed : Int) :
    findBestIdx pipes needed = none ↔ ∀ p ∈ pipes, p.remainingMm < needed := by
  unfold findBestIdx
  rw [Option.map_eq_none']
  rw [bestFitAux_none]
  simp

theorem findBestIdx_spec (pipes : List Pipe) (needed : Int) (j : Nat)
    (h : findBestIdx pipes needed = some j) :
    ∃ pj, pipes[j]? = some pj ∧ needed ≤ pj.remainingMm ∧
      ∀ (k : Nat) (pk : Pipe), pipes[k]? = some pk → needed ≤ pk.remainingMm →
        pj.remainingMm ≤ pk.remainingMm ∧ (k < j → pj.remainingMm < pk.remainingMm) := by
  unfold findBestIdx at h
  rcases Option.map_eq_some'.mp h with ⟨⟨j', br⟩, hbf, hj⟩
  cases hj
  rcases bestFitAux_origin needed pipes 0 none j' br hbf with hb | ⟨k, p, hk, hjk, hrem⟩
  · cases hb
  · have hjeq : j' = k := by omega
    subst hjeq
    refine ⟨p, hk, ?_, ?_⟩
    · have := bestFitAux_adequate needed pipes 0 none j' br (by intro _ _ h'; cases h') hbf
      omega
    · intro k' pk hk' hpk
      constructor
      · have := bestFitAux_min needed pipes 0 none j' br hbf k' pk hk' hpk
        omega
      · intro hlt
        have := bestFitAux_strict needed pipes 0 none j' br
          (by intro _ _ h'; cases h') hbf k' pk hk' (by omega) hpk
        omega

/-! ## `assignAt` and `placePiece` -/

theorem joinCuts_nil : joinCuts [] = [] := rfl

theorem joinCuts_cons (p : Pipe) (ps : List Pipe) :
    joinCuts (p :: ps) = p.cuts ++ joinCuts ps := by
  simp [joinCuts]

theorem joinCuts_append (l1 l2 : List Pipe) :
    joinCuts (l1 ++ l2) = joinCuts l1 ++ joinCuts l2 := by
  simp [joinCuts]

theorem assignAt_length (piece : Demand) (needed : Int) :
    ∀ (ps : List Pipe) (k : Nat), (assignAt piece needed ps k).length = ps.length := by
  intro ps
  induction ps with
  | nil => intro k; rfl
  | cons p t ih =>
    intro k
    cases k with
    | zero => simp [assignAt]
    | succ k' => simp [assignAt, ih]

theorem assignAt_getElem_self (piece : Demand) (needed : Int) :
    ∀ (ps : List Pipe) (k : Nat) (p : Pipe), ps[k]? = some p →
      (assignAt piece needed ps k)[k]?
        = some { p with cuts := p.cuts ++ [piece], remainingMm := p.remainingMm - needed } := by
  intro ps
  induction ps with
  | nil => intro k p h; simp at h
  | cons p0 t ih =>
    intro k p h
    cases k with
    | zero =>
      rw [List.getElem?_cons_zero] at h
      cases h
      simp [assignAt]
    | succ k' =>
      rw [List.getElem?_cons_succ] at h
      simpa [assignAt] using ih k' p h

theorem assignAt_getElem_ne (piece : Demand) (needed : Int) :
    ∀ (ps : List Pipe) (k m : Nat), m ≠ k → (assignAt piece needed ps k)[m]? = ps[m]? := by
  intro ps
  induction ps with
  | nil => intro k m _; simp [assignAt]
  | cons p0 t ih =>
    intro k m hne
    cases k with
    | zero =>
      cases m with
      | zero => exact absurd rfl hne
      | succ m' => simp [assignAt]
    | succ k' =>
      cases m with
      | zero => simp [assignAt]
      | succ m' =>
        simp only [assignAt, List.getElem?_cons_succ]
        exact ih k' m' (fun h => hne (by omega))

theorem mem_assignAt (piece : Demand) (needed : Int) :
    ∀ (ps : List Pipe) (k : Nat) (q : Pipe), q ∈ assignAt piece needed ps k →
      (∃ p, ps[k]? = some p
         ∧ q = { p with cuts := p.cuts ++ [piece], remainingMm := p.remainingMm - needed })
      ∨ q ∈ ps := by
  intro ps
  induction ps with
  | nil => intro k q h; simp [assignAt] at h
  | cons p0 t ih =>
    intro k q h
    cases k with
    | zero =>
      simp only [assignAt] at h
      rcases List.mem_cons.mp h with h | h
      · exact Or.inl ⟨p0, List.getElem?_cons_zero, h⟩
      · exact Or.inr (List.mem_cons_of_mem _ h)
    | succ k' =>
      simp only [assignAt] at h
      rcases List.mem_cons.mp h with h | h
      · exact Or.inr (h ▸ List.mem_cons_self _ _)
      · rcases ih k' q h with ⟨p, hp, hq⟩ | h'
        · exact Or.inl ⟨p, by simpa using hp, hq⟩
        · exact Or.inr (List.mem_cons_of_mem _ h')

theorem joinCuts_assignAt (piece : Demand) (needed : Int) :
    ∀ (ps : List Pipe) (k : Nat) (p : Pipe), ps[k]? = some p →
      List.Perm (joinCuts (assignAt piece needed ps k)) (piece :: joinCuts ps) := by
  intro ps
  induction ps with
  | nil => intro k p h; simp at h
  | cons p0 t ih =>
    intro k p h
    cases k with
    | zero =>
      rw [List.getElem?_cons_zero] at h
      cases h
      simp only [assignAt, joinCuts_cons]
      refine (List.Perm.of_eq ?_).trans List.perm_middle
      simp
    | succ k' =>
      rw [List.getElem?_cons_succ] at h
      simp only [assignAt, joinCuts_cons]
      exact (List.Perm.append_left p0.cuts (ih k' p h)).trans List.perm_middle

theorem placePiece_skip (usable s : Int) (pipes : List Pipe) (piece : Demand)
    (h : usable < piece.lengthMm) : placePiece usable s pipes piece = pipes := by
  simp [placePiece, h]

theorem placePiece_assign (usable s : Int) (pipes : List Pipe) (piece : Demand) (i : Nat)
    (h : ¬ usable < piece.lengthMm)
    (hf : findBestIdx pipes (piece.lengthMm + KERF) = some i) :
    placePiece usable s pipes piece = assignAt piece (piece.lengthMm + KERF) pipes i := by
  simp [placePiece, h, hf]

theorem placePiece_new (usable s : Int) (pipes : List Pipe) (piece : Demand)
    (h : ¬ usable < piece.lengthMm)
    (hf : findBestIdx pipes (piece.lengthMm + KERF) = none) :
    placePiece usable s pipes piece
      = pipes ++ [⟨[piece], usable - (piece.lengthMm + KERF), s, usable⟩] := by
  simp [placePiece, h, hf]

/-! ## The stable descending sort -/

theorem insertPiece_perm (d : Demand) (l : List Demand) :
    List.Perm (insertPiece d l) (d :: l) := by
  induction l with
  | nil => exact List.Perm.refl _
  | cons x xs ih =>
    simp only [insertPiece]
    by_cases h : x.lengthMm < d.lengthMm
    · rw [if_pos h]
    · rw [if_neg h]
      exact List.Perm.trans (ih.cons x) (List.Perm.swap d x xs)

theorem sortDesc_perm (l : List Demand) : List.Perm (sortDesc l) l := by
  suffices h : ∀ (t : List Demand) (acc : List Demand),
      List.Perm (t.foldl (fun acc d => insertPiece d acc) acc) (acc ++ t) by
    simpa using h l []
  intro t
  induction t with
  | nil => intro acc; simp
  | cons d t ih =>
    intro acc
    simp only [List.foldl_cons]
    refine (ih (insertPiece d acc)).trans ?_
    refine ((List.perm_append_right_iff t).mpr (insertPiece_perm d acc)).trans ?_
    exact List.perm_middle.symm

/-! ## Cut conservation through the packing fold -/

theorem joinCuts_foldl (usable s : Int) :
    ∀ (l : List Demand) (acc : List Pipe),
      List.Perm (joinCuts (l.foldl (placePiece usable s) acc))
        (joinCuts acc ++ l.filter fun d => decide (d.lengthMm ≤ usable)) := by
  intro l
  induction l with
  | nil => intro acc; simp
  | cons d t ih =>
    intro acc
    simp only [List.foldl_cons, List.filter_cons]
    by_cases h : usable < d.lengthMm
    · have hd : ¬ d.lengthMm ≤ usable := not_le.mpr h
      rw [placePiece_skip usable s acc d h]
      simpa [hd] using ih acc
    · have hd : d.lengthMm ≤ usable := not_lt.mp h
      have hdec : decide (d.lengthMm ≤ usable) = true := by simpa using hd
      rcases hfind : findBestIdx acc (d.lengthMm + KERF) with _ | i
      · rw [placePiece_new usable s acc d h hfind]
        refine (ih _).trans ?_
        rw [joinCuts_append, if_pos hdec, List.append_assoc]
        refine List.Perm.of_eq ?_
        simp [joinCuts]
      · rw [placePiece_assign usable s acc d i h hfind]
        rcases findBestIdx_spec acc (d.lengthMm + KERF) i hfind with ⟨pi, hpi, _, _⟩
        rw [if_pos hdec]
        refine ((ih _).trans ?_)
        refine List.Perm.trans ((List.perm_append_right_iff _).mpr
          (joinCuts_assignAt d (d.lengthMm + KERF) acc i pi hpi)) ?_
        exact List.perm_middle.symm

theorem refundKerf_cuts (p : Pipe) : (refundKerf p).cuts = p.cuts := by
  unfold refundKerf
  by_cases h : 0 < p.cuts.length
  · rw [if_pos h]
  · rw [if_neg h]

theorem joinCuts_map_refundKerf (l : List Pipe) :
    joinCuts (l.map refundKerf) = joinCuts l := by
  unfold joinCuts
  rw [List.map_map]
  congr 1
  exact List.map_congr_left fun p _ => refundKerf_cuts p

theorem joinCuts_packMaterial (mat : Material) (pieces : List Demand) :
    List.Perm (joinCuts (packMaterial mat pieces))
      (pieces.filter fun d => decide (d.lengthMm ≤ mat.stockLengthMm - FIXED_WASTE)) := by
  unfold packMaterial
  rw [joinCuts_map_refundKerf]
  refine (joinCuts_foldl _ _ (sortDesc pieces) []).trans ?_
  simp only [joinCuts_nil, List.nil_append]
  exact (sortDesc_perm pieces).filter _

/-! ## The packing invariant -/

theorem sumLens_append (l1 l2 : List Demand) :
    sumLens (l1 ++ l2) = sumLens l1 + sumLens l2 := by
  simp [sumLens]

theorem pipeOk_placePiece (usable s : Int) (pipes : List Pipe) (piece : Demand)
    (h : ∀ p ∈ pipes, PipeOk usable s p) :
    ∀ q ∈ placePiece usable s pipes piece, PipeOk usable s q := by
  intro q hq
  by_cases hskip : usable < piece.lengthMm
  · rw [placePiece_skip usable s pipes piece hskip] at hq
    exact h q hq
  · have hlen : piece.lengthMm ≤ usable := not_lt.mp hskip
    rcases hfind : findBestIdx pipes (piece.lengthMm + KERF) with _ | i
    · rw [placePiece_new usable s pipes piece hskip hfind] at hq
      rcases List.mem_append.mp hq with hq | hq
      · exact h q hq
      · rw [List.mem_singleton] at hq
        subst hq
        refine ⟨rfl, rfl, by simp, ?_, ?_, ?_⟩
        · intro c hc
          rw [List.mem_singleton] at hc
          subst hc
          exact hlen
        · show usable - (piece.lengthMm + KERF) = usable - sumLens [piece] - KERF * (1 : Nat)
          simp [sumLens]
          ring
        · show -KERF ≤ usable - (piece.lengthMm + KERF)
          omega
    · rw [placePiece_assign usable s pipes piece i hskip hfind] at hq
      rcases findBestIdx_spec pipes (piece.lengthMm + KERF) i hfind with ⟨pi, hpi, hadq, _⟩
      rcases mem_assignAt piece (piece.lengthMm + KERF) pipes i q hq with ⟨p, hp, hq'⟩ | hq'
      · rw [hp] at hpi
        have hppi : p = pi := Option.some_inj.mp hpi
        subst hppi
        subst hq'
        rcases h p (List.getElem?_mem hp) with ⟨h1, h2, h3, h4, h5, h6⟩
        refine ⟨h1, h2, by simp, ?_, ?_, ?_⟩
        · intro c hc
          rcases List.mem_append.mp hc with hc | hc
          · exact h4 c hc
          · rw [List.mem_singleton] at hc
            subst hc
            exact hlen
        · show p.remainingMm - (piece.lengthMm + KERF)
            = usable - sumLens (p.cuts ++ [piece]) - KERF * ((p.cuts ++ [piece]).length : Nat)
          have hs : sumLens [piece] = piece.lengthMm := by simp [sumLens]
          rw [h5, sumLens_append, List.length_append, hs, List.length_singleton]
          push_cast
          ring
        · show -KERF ≤ p.remainingMm - (piece.lengthMm + KERF)
          have h0 : (0 : Int) ≤ p.remainingMm - (piece.lengthMm + KERF) := by omega
          have hK : (0 : Int) ≤ KERF := by decide
          omega
      · exact h q hq'

theorem pipeOk_foldl (usable s : Int) :
    ∀ (l : List Demand) (acc : List Pipe), (∀ p ∈ acc, PipeOk usable s p) →
      ∀ q ∈ l.foldl (placePiece usable s) acc, PipeOk usable s q := by
  intro l
  induction l with
  | nil => intro acc h q hq; exact h q hq
  | cons d t ih =>
    intro acc h q hq
    simp only [List.foldl_cons] at hq
    exact ih _ (pipeOk_placePiece usable s acc d h) q hq

theorem planPipeOk_packMaterial (mat : Material) (pieces : List Demand) :
    ∀ p ∈ packMaterial mat pieces, PlanPipeOk mat p := by
  intro p hp
  unfold packMaterial at hp
  rcases List.mem_map.mp hp with ⟨q, hq, hpq⟩
  have hok : PipeOk (mat.stockLengthMm - FIXED_WASTE) mat.stockLengthMm q :=
    pipeOk_foldl _ _ (sortDesc pieces) [] (by intro p hp; simp at hp) q hq
  rcases hok with ⟨h1, h2, h3, h4, h5, h6⟩
  have hlen : 0 < q.cuts.length := List.length_pos.mpr h3
  have hgoal : PlanPipeOk mat { q with remainingMm := q.remainingMm + KERF } := by
    refine ⟨h1, ?_, h3, ?_, ?_, ?_⟩
    · show q.usableMm = mat.stockLengthMm - FIXED_WASTE
      exact h2
    · show ∀ c ∈ q.cuts, c.lengthMm ≤ q.usableMm
      intro c hc
      rw [h2]
      exact h4 c hc
    · show (0 : Int) ≤ q.remainingMm + KERF
      omega
    · show q.stockLengthMm
        = FIXED_WASTE + sumLens q.cuts + KERF * ((q.cuts.length : Int) - 1) + (q.remainingMm + KERF)
      rw [h1, h5]
      ring
  have hrefund : refundKerf q = { q with remainingMm := q.remainingMm + KERF } := by
    unfold refundKerf
    rw [if_pos hlen]
  rw [← hpq, hrefund]
  exact hgoal

theorem planPipeOk_optimize (materials : List Material) (demands : List Demand)
    (e : String × List Pipe) (he : e ∈ optimize materials demands) :
    ∃ mat, materialLookup materials e.1 = some mat ∧ ∀ p ∈ e.2, PlanPipeOk mat p := by
  rcases (mem_optimize materials demands e).mp he with ⟨mat, hmat, _, hpk⟩
  exact ⟨mat, hmat, hpk ▸ planPipeOk_packMaterial mat _⟩

theorem cuts_append_ne (pi : Pipe) (piece : Demand) (needed : Int) :
    pi ≠ { pi with cuts := pi.cuts ++ [piece], remainingMm := pi.remainingMm - needed } := by
  intro h
  have hc := congrArg Pipe.cuts h
  simp only at hc
  have := congrArg List.length hc
  simp at this

theorem placePiece_assign_adequate (usable s : Int) (pipes : List Pipe) (piece : Demand)
    (i : Nat) (pi : Pipe) (hpi : pipes[i]? = some pi)
    (hres : (placePiece usable s pipes piece)[i]?
        = some { pi with cuts := pi.cuts ++ [piece],
                         remainingMm := pi.remainingMm - (piece.lengthMm + KERF) }) :
    piece.lengthMm + KERF ≤ pi.remainingMm := by
  by_cases hskip : usable < piece.lengthMm
  · rw [placePiece_skip usable s pipes piece hskip] at hres
    rw [hpi] at hres
    exact absurd (Option.some_inj.mp hres) (cuts_append_ne pi piece _)
  · rcases hfind : findBestIdx pipes (piece.lengthMm + KERF) with _ | j
    · rw [placePiece_new usable s pipes piece hskip hfind] at hres
      have hi : i < pipes.length := by
        rcases List.getElem?_eq_some.mp hpi with ⟨hlt, _⟩
        exact hlt
      rw [List.getElem?_append, if_pos hi, hpi] at hres
      exact absurd (Option.some_inj.mp hres) (cuts_append_ne pi piece _)
    · rw [placePiece_assign usable s pipes piece j hskip hfind] at hres
      by_cases hij : i = j
      · subst hij
        rcases findBestIdx_spec pipes (piece.lengthMm + KERF) i hfind with ⟨pj, hpj, hadq, _⟩
        rw [hpj] at hpi
        rw [Option.some_inj.mp hpi] at hadq
        exact hadq
      · rw [assignAt_getElem_ne piece (piece.lengthMm + KERF) pipes j i hij, hpi] at hres
        exact absurd (Option.some_inj.mp hres) (cuts_append_ne pi piece _)

theorem placePiece_new_fits (usable s : Int) (pipes : List Pipe) (piece : Demand)
    (h : (placePiece usable s pipes piece).length = pipes.length + 1) :
    piece.lengthMm ≤ usable := by
  by_cases hskip : usable < piece.lengthMm
  · rw [placePiece_skip usable s pipes piece hskip] at h
    omega
  · exact not_lt.mp hskip

/-! ## Claim theorems -/

/-- Claim C1 (corrected): in the plan returned by `optimize` every bin's
`remainingMm` is nonnegative; during packing it only ever drops to `-KERF`,
not below; a piece is appended to an existing bin only if that bin's
`remainingMm` was at least `lengthMm + KERF`; and a new bin is opened for a
piece only if `lengthMm ≤ usableMm` (the source does not require
`lengthMm + KERF ≤ usableMm`, see the counterexample). -/
theorem C1_remaining_invariants (materials : List Material) (demands : List Demand)
    (hpos : ∀ d ∈ demands, 0 < d.lengthMm) :
    (∀ e ∈ optimize materials demands, ∀ p ∈ e.2, 0 ≤ p.remainingMm) ∧
    (∀ (mid : String) (pieces : List Demand) (mat : Material) (n : Nat),
      (mid, pieces) ∈ groupByMaterial demands →
      materialLookup materials mid = some mat →
      ∀ p ∈ ((sortDesc pieces).take n).foldl
          (placePiece (mat.stockLengthMm - FIXED_WASTE) mat.stockLengthMm) [],
        -KERF ≤ p.remainingMm) ∧
    (∀ (usable s : Int) (pipes : List Pipe) (piece : Demand) (i : Nat) (pi : Pipe),
      pipes[i]? = some pi →
      (placePiece usable s pipes piece)[i]?
          = some { pi with cuts := pi.cuts ++ [piece],
                           remainingMm := pi.remainingMm - (piece.lengthMm + KERF) } →
      piece.lengthMm + KERF ≤ pi.remainingMm) ∧
    (∀ (usable s : Int) (pipes : List Pipe) (piece : Demand),
      (placePiece usable s pipes piece).length = pipes.length + 1 →
      piece.lengthMm ≤ usable) := by
  refine ⟨?_, ?_, ?_, ?_⟩
  · intro e he p hp
    rcases planPipeOk_optimize materials demands e he with ⟨mat, _, hok⟩
    exact (hok p hp).2.2.2.2.1
  · intro mid pieces mat n _ _ p hp
    exact (pipeOk_foldl _ _ _ [] (by intro q hq; simp at hq) p hp).2.2.2.2.2
  · intro usable s pipes piece i pi hpi hres
    exact placePiece_assign_adequate usable s pipes piece i pi hpi hres
  · intro usable s pipes piece h
    exact placePiece_new_fits usable s pipes piece h

/-- Witness for C1 at the Scenario-1 input. -/
theorem C1_remaining_invariants_witness :
    (∀ d ∈ [(⟨"1", "P", "M", 2500⟩ : Demand)], 0 < d.lengthMm) ∧
    (∀ e ∈ optimize [⟨"M", "Mat", 6000⟩] [⟨"1", "P", "M", 2500⟩],
      ∀ p ∈ e.2, 0 ≤ p.remainingMm) :=
  ⟨by decide, (C1_remaining_invariants [⟨"M", "Mat", 6000⟩] [⟨"1", "P", "M", 2500⟩]
    (by decide)).1⟩

/-- Counterexample to C1 as stated: for a material of stock length 6000
(usable 5890) and one demand of length 5890, the packing loop opens a new bin
for the piece although `lengthMm + KERF = 5892 > 5890 = usableMm`, and that
bin's `remainingMm` is `-2 < 0` until the trailing-kerf refund; the returned
plan still contains the piece as the sole cut of that bin. -/
theorem C1_counterexample :
    (placePiece 5890 6000 [] ⟨"2", "P", "1", 5890⟩).map Pipe.remainingMm = [-2] ∧
    optimize [⟨"1", "M", 6000⟩] [⟨"2", "P", "1", 5890⟩]
      = [("1", [⟨[⟨"2", "P", "1", 5890⟩], 0, 6000, 5890⟩])] ∧
    ¬((5890 : Int) + KERF ≤ 5890) ∧ (0 : Int) < 5890 := by
  refine ⟨by decide, by decide, by decide, by decide⟩

/-- Claim C2 (confirmed): every bin of the returned plan with at least one
cut satisfies the conservation equation
`stockLengthMm = FIXED_TRIM + sum of cut lengths + KERF·(cuts − 1) + remainingMm`,
and the trailing-kerf refund adds `KERF` back exactly once to every pipe with
at least one cut. -/
theorem C2_conservation (materials : List Material) (demands : List Demand)
    (hpos : ∀ d ∈ demands, 0 < d.lengthMm) :
    (∀ e ∈ optimize materials demands, ∀ p ∈ e.2, 1 ≤ p.cuts.length →
      p.stockLengthMm
        = FIXED_WASTE + sumLens p.cuts + KERF * ((p.cuts.length : Int) - 1) + p.remainingMm) ∧
    (∀ q : Pipe, 1 ≤ q.cuts.length → (refundKerf q).remainingMm = q.remainingMm + KERF) := by
  constructor
  · intro e he p hp _
    rcases planPipeOk_optimize materials demands e he with ⟨mat, _, hok⟩
    exact (hok p hp).2.2.2.2.2
  · intro q hq
    unfold refundKerf
    rw [if_pos (show 0 < q.cuts.length by omega)]

/-- Witness for C2 at the Scenario-1 input. -/
theorem C2_conservation_witness :
    (∀ d ∈ [(⟨"1", "P", "M", 2500⟩ : Demand), ⟨"2", "P", "M", 2500⟩, ⟨"3", "P", "M", 2500⟩],
      0 < d.lengthMm) ∧
    (∀ e ∈ optimize [⟨"M", "Mat", 6000⟩]
        [⟨"1", "P", "M", 2500⟩, ⟨"2", "P", "M", 2500⟩, ⟨"3", "P", "M", 2500⟩],
      ∀ p ∈ e.2, 1 ≤ p.cuts.length →
      p.stockLengthMm
        = FIXED_WASTE + sumLens p.cuts + KERF * ((p.cuts.length : Int) - 1) + p.remainingMm) :=
  ⟨by decide, (C2_conservation [⟨"M", "Mat", 6000⟩]
    [⟨"1", "P", "M", 2500⟩, ⟨"2", "P", "M", 2500⟩, ⟨"3", "P", "M", 2500⟩] (by decide)).1⟩

/-- Claim C3 (confirmed): Scenario 1 of the spec.  A single material of stock
length 6000 and three demands of length 2500 yield exactly two bins: cuts
`[2500, 2500]` with final `remainingMm = 888`, and `[2500]` with final
`remainingMm = 3390` — whatever the ids and project labels involved. -/
theorem C3_scenario (i1 i2 i3 p1 p2 p3 mid mname : String) :
    optimize [⟨mid, mname, 6000⟩]
      [⟨i1, p1, mid, 2500⟩, ⟨i2, p2, mid, 2500⟩, ⟨i3, p3, mid, 2500⟩]
      = [(mid, [⟨[⟨i1, p1, mid, 2500⟩, ⟨i2, p2, mid, 2500⟩], 888, 6000, 5890⟩,
                ⟨[⟨i3, p3, mid, 2500⟩], 3390, 6000, 5890⟩])] := by
  simp [optimize, groupByMaterial, addToGroup, materialLookup, packMaterial, sortDesc,
    insertPiece, placePiece, findBestIdx, bestFitAux, accBest, KERF, FIXED_WASTE,
    assignAt, refundKerf]

/-- Claim C4 (confirmed): `optimize` is deterministic — two calls on equal
inputs return structurally equal plans (equal keys in equal order, equal bins
in equal order, equal cuts, `remainingMm`, `stockLengthMm` and `usableMm`). -/
theorem C4_determinism (m1 m2 : List Material) (d1 d2 : List Demand)
    (hm : m1 = m2) (hd : d1 = d2) : optimize m1 d1 = optimize m2 d2 := by
  rw [hm, hd]

/-- Claim C5 helper: inserting into a descending-sorted list keeps it sorted. -/
theorem insertPiece_sorted (d : Demand) (l : List Demand) (hs : SortedDesc l) :
    SortedDesc (insertPiece d l) := by
  induction l with
  | nil => exact List.pairwise_singleton _ _
  | cons x xs ih =>
    rcases List.pairwise_cons.mp hs with ⟨hx, hxs⟩
    simp only [insertPiece]
    by_cases h : x.lengthMm < d.lengthMm
    · rw [if_pos h]
      refine List.pairwise_cons.mpr ⟨?_, hs⟩
      intro b hb
      rcases List.mem_cons.mp hb with hb | hb
      · exact hb ▸ le_of_lt h
      · exact le_trans (hx b hb) (le_of_lt h)
    · rw [if_neg h]
      refine List.pairwise_cons.mpr ⟨?_, ih hxs⟩
      intro b hb
      have hb' : b ∈ d :: xs := (insertPiece_perm d xs).mem_iff.mp hb
      rcases List.mem_cons.mp hb' with hb' | hb'
      · exact hb' ▸ not_lt.mp h
      · exact hx b hb'

theorem sortDesc_sorted (l : List Demand) : SortedDesc (sortDesc l) := by
  suffices h : ∀ (t acc : List Demand), SortedDesc acc →
      SortedDesc (t.foldl (fun acc d => insertPiece d acc) acc) by
    exact h l [] List.Pairwise.nil
  intro t
  induction t with
  | nil => intro acc h; exact h
  | cons d t ih =>
    intro acc h
    simp only [List.foldl_cons]
    exact ih _ (insertPiece_sorted d acc h)

/-- Claim C5 helper: where `insertPiece` puts the new piece — after every
piece of greater or equal length, before every strictly shorter one. -/
theorem insertPiece_split (d : Demand) (l : List Demand) (hs : SortedDesc l) :
    ∃ A B, l = A ++ B ∧ insertPiece d l = A ++ d :: B
      ∧ (∀ x ∈ A, d.lengthMm ≤ x.lengthMm) ∧ (∀ x ∈ B, x.lengthMm < d.lengthMm) := by
  induction l with
  | nil =>
    refine ⟨[], [], rfl, rfl, ?_, ?_⟩ <;> intro x hx <;> simp at hx
  | cons x xs ih =>
    rcases List.pairwise_cons.mp hs with ⟨hx, hxs⟩
    simp only [insertPiece]
    by_cases h : x.lengthMm < d.lengthMm
    · rw [if_pos h]
      refine ⟨[], x :: xs, rfl, rfl, by intro y hy; simp at hy, ?_⟩
      intro y hy
      rcases List.mem_cons.mp hy with hy | hy
      · exact hy ▸ h
      · exact lt_of_le_of_lt (hx y hy) h
    · rw [if_neg h]
      rcases ih hxs with ⟨A, B, hl, hins, hA, hB⟩
      refine ⟨x :: A, B, by rw [hl]; rfl, by rw [hins]; rfl, ?_, hB⟩
      intro y hy
      rcases List.mem_cons.mp hy with hy | hy
      · exact hy ▸ not_lt.mp h
      · exact hA y hy

theorem filter_insertPiece (d : Demand) (l : List Demand) (hs : SortedDesc l) (k : Int) :
    (insertPiece d l).filter (fun x => decide (x.lengthMm = k))
      = l.filter (fun x => decide (x.lengthMm = k))
        ++ if d.lengthMm = k then [d] else [] := by
  rcases insertPiece_split d l hs with ⟨A, B, hl, hins, hA, hB⟩
  rw [hins, hl, List.filter_append, List.filter_append, List.filter_cons]
  by_cases hd : d.lengthMm = k
  · rw [if_pos (by simpa using hd), if_pos hd]
    have hBnil : B.filter (fun x => decide (x.lengthMm = k)) = [] := by
      rw [List.filter_eq_nil_iff]
      intro x hx hdec
      have : x.lengthMm = k := by simpa using hdec
      exact absurd (this ▸ hB x hx) (by rw [← hd]; exact lt_irrefl _)
    rw [hBnil]
    simp
  · rw [if_neg (by simpa using hd), if_neg hd]
    simp

theorem sortDesc_filter (l : List Demand) (k : Int) :
    (sortDesc l).filter (fun x => decide (x.lengthMm = k))
      = l.filter (fun x => decide (x.lengthMm = k)) := by
  suffices h : ∀ (t acc : List Demand), SortedDesc acc →
      (t.foldl (fun acc d => insertPiece d acc) acc).filter (fun x => decide (x.lengthMm = k))
        = acc.filter (fun x => decide (x.lengthMm = k))
          ++ t.filter (fun x => decide (x.lengthMm = k)) by
    simpa using h l [] List.Pairwise.nil
  intro t
  induction t with
  | nil => intro acc h; simp
  | cons d t ih =>
    intro acc h
    simp only [List.foldl_cons, List.filter_cons]
    rw [ih _ (insertPiece_sorted d acc h), filter_insertPiece d acc h k]
    by_cases hd : d.lengthMm = k
    · rw [if_pos hd, if_pos (by simpa using hd)]
      simp
    · rw [if_neg hd, if_neg (by simpa using hd)]
      simp

/-- Claim C5 (confirmed): pieces are processed in stably-sorted descending
length order; a piece that fits some open bin goes to the open bin with the
smallest adequate `remainingMm`, earliest bin on ties; a new bin is opened
only when no open bin has `remainingMm ≥ lengthMm + KERF`. -/
theorem C5_best_fit :
    (∀ l : List Demand, SortedDesc (sortDesc l) ∧ List.Perm (sortDesc l) l ∧
      ∀ k : Int, (sortDesc l).filter (fun x => decide (x.lengthMm = k))
        = l.filter (fun x => decide (x.lengthMm = k))) ∧
    (∀ (usable s : Int) (pipes : List Pipe) (piece : Demand),
      (piece.lengthMm ≤ usable →
        (∃ p ∈ pipes, piece.lengthMm + KERF ≤ p.remainingMm) →
        ∃ (i : Nat) (pi : Pipe), findBestIdx pipes (piece.lengthMm + KERF) = some i ∧
          pipes[i]? = some pi ∧
          placePiece usable s pipes piece = assignAt piece (piece.lengthMm + KERF) pipes i ∧
          piece.lengthMm + KERF ≤ pi.remainingMm ∧
          ∀ (j : Nat) (pj : Pipe), pipes[j]? = some pj →
            piece.lengthMm + KERF ≤ pj.remainingMm →
            pi.remainingMm ≤ pj.remainingMm ∧ (pj.remainingMm = pi.remainingMm → i ≤ j)) ∧
      (piece.lengthMm ≤ usable →
        findBestIdx pipes (piece.lengthMm + KERF) = none →
        placePiece usable s pipes piece
            = pipes ++ [⟨[piece], usable - (piece.lengthMm + KERF), s, usable⟩] ∧
          ∀ p ∈ pipes, p.remainingMm < piece.lengthMm + KERF)) := by
  refine ⟨fun l => ⟨sortDesc_sorted l, sortDesc_perm l, fun k => sortDesc_filter l k⟩, ?_⟩
  intro usable s pipes piece
  constructor
  · intro hfit hex
    rcases hfound : findBestIdx pipes (piece.lengthMm + KERF) with _ | i
    · rcases hex with ⟨p, hp, hadq⟩
      exact absurd hadq (not_le.mpr ((findBestIdx_none pipes _).mp hfound p hp))
    · rcases findBestIdx_spec pipes (piece.lengthMm + KERF) i hfound with ⟨pi, hpi, hadq, hmin⟩
      refine ⟨i, pi, rfl, hpi, placePiece_assign usable s pipes piece i
        (not_lt.mpr hfit) hfound, hadq, ?_⟩
      intro j pj hpj hpjadq
      rcases hmin j pj hpj hpjadq with ⟨hle, hstrict⟩
      refine ⟨hle, ?_⟩
      intro heq
      by_contra hji
      exact absurd (heq ▸ hstrict (by omega)) (lt_irrefl _)
  · intro hfit hnone
    exact ⟨placePiece_new usable s pipes piece (not_lt.mpr hfit) hnone,
      (findBestIdx_none pipes _).mp hnone⟩

/-- Witness for C5 at a concrete two-bin state in which the second, tighter
bin must win the best-fit scan. -/
theorem C5_best_fit_witness :
    (SortedDesc (sortDesc [(⟨"1", "P", "M", 100⟩ : Demand), ⟨"2", "P", "M", 300⟩]) ∧
      List.Perm (sortDesc [(⟨"1", "P", "M", 100⟩ : Demand), ⟨"2", "P", "M", 300⟩])
        [(⟨"1", "P", "M", 100⟩ : Demand), ⟨"2", "P", "M", 300⟩] ∧
      ∀ k : Int,
        ((sortDesc [(⟨"1", "P", "M", 100⟩ : Demand), ⟨"2", "P", "M", 300⟩]).filter
            fun x => decide (x.lengthMm = k))
          = ([(⟨"1", "P", "M", 100⟩ : Demand), ⟨"2", "P", "M", 300⟩].filter
            fun x => decide (x.lengthMm = k))) ∧
    ((((⟨"9", "P", "M", 500⟩ : Demand).lengthMm ≤ 5890) →
      (∃ p ∈ [(⟨[], 4000, 6000, 5890⟩ : Pipe), ⟨[], 600, 6000, 5890⟩],
        (⟨"9", "P", "M", 500⟩ : Demand).lengthMm + KERF ≤ p.remainingMm) →
      ∃ (i : Nat) (pi : Pipe),
        findBestIdx [(⟨[], 4000, 6000, 5890⟩ : Pipe), ⟨[], 600, 6000, 5890⟩]
            ((⟨"9", "P", "M", 500⟩ : Demand).lengthMm + KERF) = some i ∧
        [(⟨[], 4000, 6000, 5890⟩ : Pipe), ⟨[], 600, 6000, 5890⟩][i]? = some pi ∧
        placePiece 5890 6000 [(⟨[], 4000, 6000, 5890⟩ : Pipe), ⟨[], 600, 6000, 5890⟩]
            ⟨"9", "P", "M", 500⟩
          = assignAt ⟨"9", "P", "M", 500⟩ ((⟨"9", "P", "M", 500⟩ : Demand).lengthMm + KERF)
              [(⟨[], 4000, 6000, 5890⟩ : Pipe), ⟨[], 600, 6000, 5890⟩] i ∧
        (⟨"9", "P", "M", 500⟩ : Demand).lengthMm + KERF ≤ pi.remainingMm ∧
        ∀ (j : Nat) (pj : Pipe),
          [(⟨[], 4000, 6000, 5890⟩ : Pipe), ⟨[], 600, 6000, 5890⟩][j]? = some pj →
          (⟨"9", "P", "M", 500⟩ : Demand).lengthMm + KERF ≤ pj.remainingMm →
          pi.remainingMm ≤ pj.remainingMm ∧ (pj.remainingMm = pi.remainingMm → i ≤ j)) ∧
    (((⟨"9", "P", "M", 500⟩ : Demand).lengthMm ≤ 5890) →
      findBestIdx [(⟨[], 4000, 6000, 5890⟩ : Pipe), ⟨[], 600, 6000, 5890⟩]
          ((⟨"9", "P", "M", 500⟩ : Demand).lengthMm + KERF) = none →
      placePiece 5890 6000 [(⟨[], 4000, 6000, 5890⟩ : Pipe), ⟨[], 600, 6000, 5890⟩]
          ⟨"9", "P", "M", 500⟩
        = [(⟨[], 4000, 6000, 5890⟩ : Pipe), ⟨[], 600, 6000, 5890⟩]
            ++ [⟨[⟨"9", "P", "M", 500⟩],
                  5890 - ((⟨"9", "P", "M", 500⟩ : Demand).lengthMm + KERF), 6000, 5890⟩] ∧
      ∀ p ∈ [(⟨[], 4000, 6000, 5890⟩ : Pipe), ⟨[], 600, 6000, 5890⟩],
        p.remainingMm < (⟨"9", "P", "M", 500⟩ : Demand).lengthMm + KERF)) :=
  ⟨C5_best_fit.1 [⟨"1", "P", "M", 100⟩, ⟨"2", "P", "M", 300⟩],
   C5_best_fit.2 5890 6000 [⟨[], 4000, 6000, 5890⟩, ⟨[], 600, 6000, 5890⟩]
     ⟨"9", "P", "M", 500⟩⟩

/-! ## Bridging `aggregateDemands` to the generic grouping -/

theorem mapInsert_ne_nil {α κ : Type} [DecidableEq κ] (key : α → κ) :
    ∀ (gs : List (κ × List α)) (a : α), (∀ g ∈ gs, g.2 ≠ []) →
      ∀ g ∈ mapInsert key gs a, g.2 ≠ [] := by
  intro gs
  induction gs with
  | nil =>
    intro a _ g hg
    rw [show mapInsert key [] a = [(key a, [a])] from rfl, List.mem_singleton] at hg
    subst hg
    simp
  | cons e rest ih =>
    intro a h g hg
    simp only [mapInsert] at hg
    by_cases hk : e.1 = key a
    · rw [if_pos hk] at hg
      rcases List.mem_cons.mp hg with hg | hg
      · subst hg; simp [h e (List.mem_cons_self _ _)]
      · exact h g (List.mem_cons_of_mem _ hg)
    · rw [if_neg hk] at hg
      rcases List.mem_cons.mp hg with hg | hg
      · exact hg ▸ h e (List.mem_cons_self _ _)
      · exact ih a (fun g' hg' => h g' (List.mem_cons_of_mem _ hg')) g hg

theorem aggOf_key (g : String × List Demand) : (aggOf g).key = g.1 := by
  rcases g with ⟨k, ms⟩
  cases ms <;> rfl

theorem aggOf_ids (g : String × List Demand) (h : g.2 ≠ []) :
    (aggOf g).ids = g.2.map Demand.id := by
  rcases g with ⟨k, ms⟩
  cases ms with
  | nil => exact absurd rfl h
  | cons m ms' => rfl

theorem addAgg_eq (gs : List (String × List Demand)) (d : Demand)
    (hne : ∀ g ∈ gs, g.2 ≠ []) :
    addAgg (gs.map aggOf) d = (mapInsert aggKey gs d).map aggOf := by
  induction gs with
  | nil => rfl
  | cons g gs' ih =>
    simp only [List.map_cons, addAgg, mapInsert, aggOf_key]
    by_cases hk : g.1 = aggKey d
    · rw [if_pos hk, if_pos hk, List.map_cons]
      congr 1
      rcases g with ⟨k, ms⟩
      cases ms with
      | nil => exact absurd rfl (hne (k, []) (List.mem_cons_self _ _))
      | cons m ms' =>
        show ({ aggOf (k, m :: ms') with
          count := (aggOf (k, m :: ms')).count + 1,
          ids := (aggOf (k, m :: ms')).ids ++ [d.id] } : AggregatedDemand)
            = aggOf (k, (m :: ms') ++ [d])
        simp [aggOf]
    · rw [if_neg hk, if_neg hk, List.map_cons]
      congr 1
      exact ih fun g' hg' => hne g' (List.mem_cons_of_mem _ hg')

theorem aggregateDemands_eq (l : List Demand) :
    aggregateDemands l = (mapGroups aggKey l).map aggOf := by
  suffices h : ∀ (t : List Demand) (gs : List (String × List Demand)),
      (∀ g ∈ gs, g.2 ≠ []) →
      t.foldl addAgg (gs.map aggOf) = (t.foldl (mapInsert aggKey) gs).map aggOf by
    simpa using h l [] (by intro g hg; simp at hg)
  intro t
  induction t with
  | nil => intro gs _; rfl
  | cons d t ih =>
    intro gs hne
    simp only [List.foldl_cons]
    rw [addAgg_eq gs d hne]
    exact ih _ (mapInsert_ne_nil aggKey gs d hne)

theorem mem_aggIds (l : List Demand) (x : String) :
    x ∈ ((aggregateDemands l).map AggregatedDemand.ids).flatten ↔ x ∈ l.map Demand.id := by
  rw [aggregateDemands_eq, List.map_map]
  rw [List.mem_flatten]
  constructor
  · rintro ⟨ids, hids, hx⟩
    rcases List.mem_map.mp hids with ⟨g, hg, hgids⟩
    have hne := mapGroups_members_ne_nil aggKey l g hg
    rw [show (AggregatedDemand.ids ∘ aggOf) g = (aggOf g).ids from rfl, aggOf_ids g hne] at hgids
    rw [← hgids] at hx
    rcases List.mem_map.mp hx with ⟨d, hd, hdx⟩
    rcases (mem_mapGroups aggKey l g).mp hg with ⟨_, hg2⟩
    have hdl : d ∈ l := List.mem_of_mem_filter (hg2 ▸ hd)
    exact List.mem_map.mpr ⟨d, hdl, hdx⟩
  · intro hx
    rcases List.mem_map.mp hx with ⟨d, hd, hdx⟩
    have hkey : aggKey d ∈ firstSeen aggKey l := (mem_firstSeen aggKey l _).mpr ⟨d, hd, rfl⟩
    have hg : (aggKey d, l.filter fun a => decide (aggKey a = aggKey d)) ∈ mapGroups aggKey l :=
      (mem_mapGroups aggKey l _).mpr ⟨hkey, rfl⟩
    have hdg : d ∈ l.filter fun a => decide (aggKey a = aggKey d) :=
      List.mem_filter.mpr ⟨hd, by simp⟩
    refine ⟨(aggOf (aggKey d, l.filter fun a => decide (aggKey a = aggKey d))).ids, ?_, ?_⟩
    · exact List.mem_map.mpr ⟨_, hg, rfl⟩
    · rw [aggOf_ids _ (mapGroups_members_ne_nil aggKey l _ hg)]
      exact List.mem_map.mpr ⟨d, hdg, hdx⟩

/-! ## Counting bins that contain a demand -/

theorem mem_joinCuts (d : Demand) (ps : List Pipe) :
    d ∈ joinCuts ps ↔ ∃ p ∈ ps, d ∈ p.cuts := by
  unfold joinCuts
  rw [List.mem_flatten]
  constructor
  · rintro ⟨cs, hcs, hd⟩
    rcases List.mem_map.mp hcs with ⟨p, hp, hpc⟩
    exact ⟨p, hp, hpc ▸ hd⟩
  · rintro ⟨p, hp, hd⟩
    exact ⟨p.cuts, List.mem_map.mpr ⟨p, hp, rfl⟩, hd⟩

theorem count_joinCuts (d : Demand) (ps : List Pipe) :
    (joinCuts ps).count d = (ps.map fun p => p.cuts.count d).sum := by
  induction ps with
  | nil => rfl
  | cons p t ih => rw [joinCuts_cons, List.count_append, List.map_cons, List.sum_cons, ih]

theorem sum_eq_zero_countP (ns : List Nat) (h : ns.sum = 0) :
    ns.countP (fun n => decide (0 < n)) = 0 := by
  induction ns with
  | nil => rfl
  | cons n t ih =>
    rw [List.sum_cons] at h
    have hn : n = 0 := by omega
    rw [List.countP_cons, ih (by omega), hn]
    simp

theorem sum_eq_one_countP (ns : List Nat) (h : ns.sum = 1) :
    ns.countP (fun n => decide (0 < n)) = 1 := by
  induction ns with
  | nil => simp at h
  | cons n t ih =>
    rw [List.sum_cons] at h
    rw [List.countP_cons]
    by_cases hn : n = 0
    · rw [hn] at h ⊢
      rw [ih (by omega)]
      simp
    · have ht : t.sum = 0 := by omega
      rw [sum_eq_zero_countP t ht]
      simp [Nat.pos_of_ne_zero hn]

theorem countP_cuts_eq (d : Demand) (ps : List Pipe) :
    (ps.countP fun p => decide (d ∈ p.cuts))
      = (ps.map fun p => p.cuts.count d).countP (fun n => decide (0 < n)) := by
  rw [List.countP_map]
  refine List.countP_congr ?_
  intro p _
  simp [Function.comp, List.count_pos_iff]

theorem binsContaining_eq_sum (plan : CutPlan) (d : Demand) :
    binsContaining plan d
      = (plan.map fun e => e.2.countP fun p => decide (d ∈ p.cuts)).sum := by
  unfold binsContaining allPipes
  induction plan with
  | nil => rfl
  | cons e t ih =>
    simp only [List.map_cons, List.flatten_cons, List.countP_append, List.sum_cons]
    rw [ih]

/-- A nonnegative-integer sum over a list equals the count of predicate-true
entries when every entry contributes its indicator. -/
theorem sum_indicator {β : Type} (l : List β) (f : β → Nat) (q : β → Bool)
    (hf : ∀ e ∈ l, f e = if q e then 1 else 0) :
    (l.map f).sum = l.countP q := by
  induction l with
  | nil => rfl
  | cons e t ih =>
    rw [List.map_cons, List.sum_cons, List.countP_cons,
      ih (fun e' he' => hf e' (List.mem_cons_of_mem _ he')), hf e (List.mem_cons_self _ _)]
    by_cases hq : q e <;> simp [hq] <;> omega

theorem optimize_entry_isSome (materials : List Material) (demands : List Demand)
    (e : String × List Pipe) (he : e ∈ optimize materials demands) :
    (materialLookup materials e.1).isSome := by
  rcases (mem_optimize materials demands e).mp he with ⟨mat, hmat, _, _⟩
  rw [hmat]
  rfl

theorem entry_countP_zero_of_ne (materials : List Material) (demands : List Demand)
    (e : String × List Pipe) (he : e ∈ optimize materials demands) (d : Demand)
    (hne : e.1 ≠ d.materialId) :
    (e.2.countP fun p => decide (d ∈ p.cuts)) = 0 := by
  rw [List.countP_eq_zero]
  intro p hp
  simp only [decide_eq_true_eq]
  intro hd
  have hjc : d ∈ joinCuts e.2 := (mem_joinCuts d e.2).mpr ⟨p, hp, hd⟩
  rcases (mem_optimize materials demands e).mp he with ⟨mat, hmat, _, he2⟩
  rw [he2] at hjc
  have hmem := (joinCuts_packMaterial mat _).mem_iff.mp hjc
  have hdf := List.mem_filter.mp hmem
  have hdf2 := List.mem_filter.mp hdf.1
  have hmid : d.materialId = e.1 := by simpa using hdf2.2
  exact hne hmid.symm

theorem count_filter_true {α : Type} [DecidableEq α] (l : List α) (p : α → Bool) (a : α)
    (h : p a = true) : (l.filter p).count a = l.count a := by
  induction l with
  | nil => rfl
  | cons x t ih =>
    by_cases hx : p x = true
    · simp [List.filter_cons, hx, List.count_cons, ih]
    · have hxa : a ≠ x := fun he => hx (he ▸ h)
      simp [List.filter_cons, hx, List.count_cons, ih, hxa]

theorem count_in_group (demands : List Demand) (d : Demand) (hd : d ∈ demands)
    (hnodup : (demands.map Demand.id).Nodup) :
    (demands.filter fun x => decide (x.materialId = d.materialId)).count d = 1 := by
  have hnd : demands.Nodup := List.Nodup.of_map _ hnodup
  rw [count_filter_true demands _ d (by simp)]
  exact List.count_eq_one_of_mem hnd hd

theorem entry_countP_one (materials : List Material) (demands : List Demand)
    (d : Demand) (mat : Material) (pipes : List Pipe)
    (hd : d ∈ demands) (hnodup : (demands.map Demand.id).Nodup)
    (hmat : materialLookup materials d.materialId = some mat)
    (hfit : d.lengthMm ≤ mat.stockLengthMm - FIXED_WASTE)
    (hpipes : (d.materialId, pipes) ∈ optimize materials demands) :
    (pipes.countP fun p => decide (d ∈ p.cuts)) = 1 := by
  rcases (mem_optimize materials demands _).mp hpipes with ⟨mat', hmat', _, hpk⟩
  simp only at hmat' hpk
  rw [hmat] at hmat'
  rw [Option.some_inj.mp hmat'] at hfit
  have hcount : (joinCuts pipes).count d = 1 := by
    rw [hpk, (joinCuts_packMaterial mat' _).count_eq]
    rw [count_filter_true _ _ d (by simpa using hfit)]
    exact count_in_group demands d hd hnodup
  rw [countP_cuts_eq]
  exact sum_eq_one_countP _ (by rw [← count_joinCuts]; exact hcount)

theorem entry_countP_zero_of_long (materials : List Material) (demands : List Demand)
    (e : String × List Pipe) (he : e ∈ optimize materials demands)
    (d : Demand) (mat : Material)
    (hmat : materialLookup materials d.materialId = some mat)
    (hlong : mat.stockLengthMm - FIXED_WASTE < d.lengthMm) :
    (e.2.countP fun p => decide (d ∈ p.cuts)) = 0 := by
  by_cases hne : e.1 = d.materialId
  · rw [List.countP_eq_zero]
    intro p hp
    simp only [decide_eq_true_eq]
    intro hdp
    have hjc : d ∈ joinCuts e.2 := (mem_joinCuts d e.2).mpr ⟨p, hp, hdp⟩
    rcases (mem_optimize materials demands e).mp he with ⟨mat', hmat', _, he2⟩
    rw [hne] at hmat'
    rw [hmat] at hmat'
    rw [he2] at hjc
    have hmem := (joinCuts_packMaterial mat' _).mem_iff.mp hjc
    have hdf := List.mem_filter.mp hmem
    have : d.lengthMm ≤ mat'.stockLengthMm - FIXED_WASTE := by simpa using hdf.2
    rw [← Option.some_inj.mp hmat'] at this
    omega
  · exact entry_countP_zero_of_ne materials demands e he d hne

theorem countP_fst_eq_count (plan : CutPlan) (k : String) :
    (plan.countP fun e => decide (e.1 = k)) = (plan.map Prod.fst).count k := by
  rw [List.count, List.countP_map]
  refine List.countP_congr ?_
  intro e _
  simp [Function.comp]

theorem tooLongB_of_some (materials : List Material) (d : Demand) (mat : Material)
    (h : materialLookup materials d.materialId = some mat) :
    tooLongB materials d = decide (mat.stockLengthMm - FIXED_WASTE < d.lengthMm) := by
  unfold tooLongB
  rw [h]

theorem tooLongB_of_none (materials : List Material) (d : Demand)
    (h : materialLookup materials d.materialId = none) :
    tooLongB materials d = false := by
  unfold tooLongB
  rw [h]

theorem mem_unassignableIds_iff (materials : List Material) (demands : List Demand)
    (d : Demand) (hd : d ∈ demands) (hnodup : (demands.map Demand.id).Nodup) :
    d.id ∈ unassignableIds materials demands ↔ tooLongB materials d = true := by
  unfold unassignableIds unassignable
  rw [mem_aggIds]
  constructor
  · intro h
    rcases List.mem_map.mp h with ⟨d', hd', hid⟩
    have hd'f := List.mem_filter.mp hd'
    have hdd : d' = d := List.inj_on_of_nodup_map hnodup hd'f.1 hd hid
    exact hdd ▸ hd'f.2
  · intro h
    exact List.mem_map.mpr ⟨d, List.mem_filter.mpr ⟨hd, h⟩, rfl⟩

/-- Claim C6 (confirmed): with distinct demand ids, a demand whose material
exists lands in exactly one bin when `lengthMm ≤ stockLengthMm − FIXED_TRIM`
and in no bin (but in the recomputed unassignable set) otherwise; a demand
whose material id is unknown lands in no bin and in no unassignable set. -/
theorem C6_placement (materials : List Material) (demands : List Demand)
    (hids : (demands.map Demand.id).Nodup) :
    ∀ d ∈ demands,
      (∀ mat, materialLookup materials d.materialId = some mat →
        (d.lengthMm ≤ mat.stockLengthMm - FIXED_WASTE →
          binsContaining (optimize materials demands) d = 1 ∧
          d.id ∉ unassignableIds materials demands) ∧
        (mat.stockLengthMm - FIXED_WASTE < d.lengthMm →
          binsContaining (optimize materials demands) d = 0 ∧
          d.id ∈ unassignableIds materials demands)) ∧
      (materialLookup materials d.materialId = none →
        binsContaining (optimize materials demands) d = 0 ∧
        d.id ∉ unassignableIds materials demands) := by
  intro d hd
  constructor
  · intro mat hmat
    constructor
    · intro hfit
      constructor
      · rw [binsContaining_eq_sum,
          sum_indicator (optimize materials demands) _ (fun e => decide (e.1 = d.materialId)) ?hf]
        case hf =>
          intro e he
          by_cases hk : e.1 = d.materialId
          · rw [if_pos (by simpa using hk)]
            rcases e with ⟨k, pipes⟩
            simp only at hk
            subst hk
            exact entry_countP_one materials demands d mat pipes hd hids hmat hfit he
          · rw [if_neg (by simpa using hk)]
            exact entry_countP_zero_of_ne materials demands e he d hk
        rw [countP_fst_eq_count]
        refine List.count_eq_one_of_mem (optimize_keys_nodup materials demands) ?_
        refine List.mem_map.mpr ⟨(d.materialId,
          packMaterial mat (demands.filter fun x => decide (x.materialId = d.materialId))), ?_, rfl⟩
        exact (mem_optimize materials demands _).mpr ⟨mat, hmat, ⟨d, hd, rfl⟩, rfl⟩
      · rw [mem_unassignableIds_iff materials demands d hd hids,
          tooLongB_of_some materials d mat hmat]
        simp
        omega
    · intro hlong
      constructor
      · rw [binsContaining_eq_sum]
        refine List.sum_eq_zero ?_
        intro x hx
        rcases List.mem_map.mp hx with ⟨e, he, hex⟩
        rw [← hex]
        exact entry_countP_zero_of_long materials demands e he d mat hmat hlong
      · rw [mem_unassignableIds_iff materials demands d hd hids,
          tooLongB_of_some materials d mat hmat]
        simpa using hlong
  · intro hnone
    constructor
    · rw [binsContaining_eq_sum]
      refine List.sum_eq_zero ?_
      intro x hx
      rcases List.mem_map.mp hx with ⟨e, he, hex⟩
      rw [← hex]
      refine entry_countP_zero_of_ne materials demands e he d ?_
      intro hk
      have := optimize_entry_isSome materials demands e he
      rw [hk, hnone] at this
      cases this
    · rw [mem_unassignableIds_iff materials demands d hd hids,
        tooLongB_of_none materials d hnone]
      simp

/-- Witness for C6 at a mixed input: one fitting demand, one too-long demand,
one demand with an unknown material id. -/
theorem C6_placement_witness :
    ((([(⟨"1", "P", "M", 2500⟩ : Demand), ⟨"2", "P", "M", 5950⟩,
        ⟨"3", "P", "X", 100⟩].map Demand.id).Nodup) ∧
    binsContaining (optimize [⟨"M", "Mat", 6000⟩]
        [⟨"1", "P", "M", 2500⟩, ⟨"2", "P", "M", 5950⟩, ⟨"3", "P", "X", 100⟩])
      ⟨"1", "P", "M", 2500⟩ = 1) := by
  refine ⟨by decide, ?_⟩
  have h := (C6_placement [⟨"M", "Mat", 6000⟩]
    [⟨"1", "P", "M", 2500⟩, ⟨"2", "P", "M", 5950⟩, ⟨"3", "P", "X", 100⟩]
    (by decide) ⟨"1", "P", "M", 2500⟩ (by decide)).1 ⟨"M", "Mat", 6000⟩ (by decide)
  exact (h.1 (by decide)).1

/-! ## Plan metrics -/

theorem statsPipes_optimize (materials : List Material) (demands : List Demand) :
    statsPipes materials (optimize materials demands) = allPipes (optimize materials demands) := by
  unfold statsPipes allPipes
  congr 1
  congr 1
  rw [List.filter_eq_self]
  exact fun e he => optimize_entry_isSome materials demands e he

theorem cutSum_eq_sumLens (p : Pipe) : cutSum p = sumLens p.cuts := by
  unfold cutSum sumLens
  suffices h : ∀ (l : List Demand) (init : Int),
      l.foldl (fun sum c => sum + c.lengthMm) init = init + (l.map Demand.lengthMm).sum by
    simpa using h p.cuts 0
  intro l
  induction l with
  | nil => intro init; simp
  | cons c t ih =>
    intro init
    rw [List.foldl_cons, ih, List.map_cons, List.sum_cons]
    ring

theorem mem_allPipes (plan : CutPlan) (p : Pipe) :
    p ∈ allPipes plan ↔ ∃ e ∈ plan, p ∈ e.2 := by
  unfold allPipes
  rw [List.mem_flatten]
  constructor
  · rintro ⟨ps, hps, hp⟩
    rcases List.mem_map.mp hps with ⟨e, he, hpe⟩
    exact ⟨e, he, hpe ▸ hp⟩
  · rintro ⟨e, he, hp⟩
    exact ⟨e.2, List.mem_map.mpr ⟨e, he, rfl⟩, hp⟩

theorem mem_cuts_optimize (materials : List Material) (demands : List Demand)
    (e : String × List Pipe) (he : e ∈ optimize materials demands)
    (p : Pipe) (hp : p ∈ e.2) (c : Demand) (hc : c ∈ p.cuts) : c ∈ demands := by
  rcases (mem_optimize materials demands e).mp he with ⟨mat, _, _, he2⟩
  have hjc : c ∈ joinCuts e.2 := (mem_joinCuts c e.2).mpr ⟨p, hp, hc⟩
  rw [he2] at hjc
  have hmem := (joinCuts_packMaterial mat _).mem_iff.mp hjc
  exact List.mem_of_mem_filter (List.mem_of_mem_filter hmem)

theorem optimize_pipe_bounds (materials : List Material) (demands : List Demand)
    (hm : ∀ m ∈ materials, 0 < m.stockLengthMm)
    (hd : ∀ d ∈ demands, 0 < d.lengthMm)
    (p : Pipe) (hp : p ∈ allPipes (optimize materials demands)) :
    0 ≤ sumLens p.cuts ∧ sumLens p.cuts ≤ p.stockLengthMm ∧ 0 < p.stockLengthMm := by
  rcases (mem_allPipes _ p).mp hp with ⟨e, he, hpe⟩
  rcases planPipeOk_optimize materials demands e he with ⟨mat, hmat, hok⟩
  rcases hok p hpe with ⟨h1, _, h3, _, h5, h6⟩
  have hsum : 0 ≤ sumLens p.cuts := by
    refine List.sum_nonneg ?_
    intro x hx
    rcases List.mem_map.mp hx with ⟨c, hc, hcx⟩
    have := hd c (mem_cuts_optimize materials demands e he p hpe c hc)
    omega
  have hn : 1 ≤ (p.cuts.length : Int) := by
    have := List.length_pos.mpr h3
    omega
  have hstock : 0 < p.stockLengthMm := by
    rw [h1]
    exact hm mat (materialLookup_some materials e.1 mat hmat).1
  refine ⟨hsum, ?_, hstock⟩
  rw [h6]
  unfold FIXED_WASTE KERF at *
  nlinarith

theorem totals_bounds (materials : List Material) (demands : List Demand)
    (hm : ∀ m ∈ materials, 0 < m.stockLengthMm)
    (hd : ∀ d ∈ demands, 0 < d.lengthMm) :
    0 ≤ totalUsedMm materials (optimize materials demands) ∧
    totalUsedMm materials (optimize materials demands)
      ≤ totalStockMm materials (optimize materials demands) ∧
    0 ≤ totalStockMm materials (optimize materials demands) := by
  unfold totalUsedMm totalStockMm
  rw [statsPipes_optimize]
  refine ⟨?_, ?_, ?_⟩
  · refine List.sum_nonneg ?_
    intro x hx
    rcases List.mem_map.mp hx with ⟨p, hp, hpx⟩
    rw [← hpx, cutSum_eq_sumLens]
    exact (optimize_pipe_bounds materials demands hm hd p hp).1
  · refine List.sum_le_sum ?_
    intro p hp
    rw [cutSum_eq_sumLens]
    exact (optimize_pipe_bounds materials demands hm hd p hp).2.1
  · refine List.sum_nonneg ?_
    intro x hx
    rcases List.mem_map.mp hx with ⟨p, hp, hpx⟩
    rw [← hpx]
    exact le_of_lt (optimize_pipe_bounds materials demands hm hd p hp).2.2

/-- Claim C7 (confirmed): the efficiency is `totalUsedMm / totalStockMm * 100`,
defined as `0` when `totalStockMm = 0` — in particular on the empty-demand
plan — and it lies in `[0, 100]` for positive stock and demand lengths. -/
theorem C7_efficiency (materials : List Material) (demands : List Demand)
    (hm : ∀ m ∈ materials, 0 < m.stockLengthMm)
    (hd : ∀ d ∈ demands, 0 < d.lengthMm) :
    (totalStockMm materials (optimize materials demands) = 0 →
      efficiencyPct materials (optimize materials demands) = 0) ∧
    (totalStockMm materials (optimize materials demands) ≠ 0 →
      efficiencyPct materials (optimize materials demands)
        = (totalUsedMm materials (optimize materials demands) : ℚ)
            / (totalStockMm materials (optimize materials demands) : ℚ) * 100) ∧
    optimize materials [] = [] ∧
    efficiencyPct materials (optimize materials []) = 0 ∧
    0 ≤ efficiencyPct materials (optimize materials demands) ∧
    efficiencyPct materials (optimize materials demands) ≤ 100 := by
  rcases totals_bounds materials demands hm hd with ⟨hu0, hus, hs0⟩
  refine ⟨?_, ?_, rfl, rfl, ?_, ?_⟩
  · intro h0
    unfold efficiencyPct
    rw [if_neg (by omega)]
  · intro hne
    unfold efficiencyPct
    rw [if_pos (by omega)]
  · unfold efficiencyPct
    by_cases hpos : 0 < totalStockMm materials (optimize materials demands)
    · rw [if_pos hpos]
      have h1 : (0 : ℚ) ≤ (totalUsedMm materials (optimize materials demands) : ℚ) := by
        exact_mod_cast hu0
      have h2 : (0 : ℚ) < (totalStockMm materials (optimize materials demands) : ℚ) := by
        exact_mod_cast hpos
      positivity
    · rw [if_neg hpos]
  · unfold efficiencyPct
    by_cases hpos : 0 < totalStockMm materials (optimize materials demands)
    · rw [if_pos hpos]
      have h2 : (0 : ℚ) < (totalStockMm materials (optimize materials demands) : ℚ) := by
        exact_mod_cast hpos
      have h3 : (totalUsedMm materials (optimize materials demands) : ℚ)
          ≤ (totalStockMm materials (optimize materials demands) : ℚ) := by
        exact_mod_cast hus
      have h4 : (totalUsedMm materials (optimize materials demands) : ℚ)
          / (totalStockMm materials (optimize materials demands) : ℚ) ≤ 1 :=
        (div_le_one h2).mpr h3
      nlinarith
    · rw [if_neg hpos]
      norm_num

/-- Witness for C7 at the Scenario-1 input. -/
theorem C7_efficiency_witness :
    (∀ m ∈ [(⟨"M", "Mat", 6000⟩ : Material)], 0 < m.stockLengthMm) ∧
    (0 ≤ efficiencyPct [⟨"M", "Mat", 6000⟩]
        (optimize [⟨"M", "Mat", 6000⟩] [⟨"1", "P", "M", 2500⟩]) ∧
      efficiencyPct [⟨"M", "Mat", 6000⟩]
        (optimize [⟨"M", "Mat", 6000⟩] [⟨"1", "P", "M", 2500⟩]) ≤ 100) := by
  have h := C7_efficiency [⟨"M", "Mat", 6000⟩] [⟨"1", "P", "M", 2500⟩]
    (by decide) (by decide)
  exact ⟨by decide, h.2.2.2.2⟩

/-! ## Plan keys -/

/-- Claim C10 (confirmed): the plan's keys are exactly the material ids that
occur in some demand and exist in the materials set; every bin in the plan
has at least one cut; and a material whose demands are all too long still
gets an entry, mapped to the empty bin list. -/
theorem C10_plan_keys (materials : List Material) (demands : List Demand) :
    (∀ mid : String, mid ∈ (optimize materials demands).map Prod.fst ↔
      ((∃ d ∈ demands, d.materialId = mid) ∧ (materialLookup materials mid).isSome)) ∧
    (∀ e ∈ optimize materials demands, ∀ p ∈ e.2, p.cuts ≠ []) ∧
    (∀ (mid : String) (mat : Material), materialLookup materials mid = some mat →
      (∃ d ∈ demands, d.materialId = mid) →
      (∀ d ∈ demands, d.materialId = mid → mat.stockLengthMm - FIXED_WASTE < d.lengthMm) →
      (mid, ([] : List Pipe)) ∈ optimize materials demands) := by
  refine ⟨?_, ?_, ?_⟩
  · intro mid
    constructor
    · intro h
      rcases List.mem_map.mp h with ⟨e, he, hek⟩
      rcases (mem_optimize materials demands e).mp he with ⟨mat, hmat, hex, _⟩
      subst hek
      exact ⟨hex, by rw [hmat]; rfl⟩
    · rintro ⟨hex, hsome⟩
      rcases Option.isSome_iff_exists.mp hsome with ⟨mat, hmat⟩
      refine List.mem_map.mpr ⟨(mid,
        packMaterial mat (demands.filter fun x => decide (x.materialId = mid))), ?_, rfl⟩
      exact (mem_optimize materials demands _).mpr ⟨mat, hmat, hex, rfl⟩
  · intro e he p hp
    rcases planPipeOk_optimize materials demands e he with ⟨mat, _, hok⟩
    exact (hok p hp).2.2.1
  · intro mid mat hmat hex hlong
    have hpack : packMaterial mat (demands.filter fun x => decide (x.materialId = mid)) = [] := by
      have hfil : ((demands.filter fun x => decide (x.materialId = mid)).filter
          fun x => decide (x.lengthMm ≤ mat.stockLengthMm - FIXED_WASTE)) = [] := by
        rw [List.filter_eq_nil_iff]
        intro x hx hdec
        have hx1 := List.mem_filter.mp hx
        have hmid : x.materialId = mid := by simpa using hx1.2
        have := hlong x hx1.1 hmid
        have hle : x.lengthMm ≤ mat.stockLengthMm - FIXED_WASTE := by simpa using hdec
        omega
      have hperm := joinCuts_packMaterial mat
        (demands.filter fun x => decide (x.materialId = mid))
      rw [hfil] at hperm
      have hnil := List.Perm.eq_nil hperm
      rcases hcase : packMaterial mat (demands.filter fun x => decide (x.materialId = mid))
        with _ | ⟨p, t⟩
      · rfl
      · exfalso
        have hpok := planPipeOk_packMaterial mat
          (demands.filter fun x => decide (x.materialId = mid)) p
          (by rw [hcase]; exact List.mem_cons_self _ _)
        rw [hcase, joinCuts_cons] at hnil
        rcases List.append_eq_nil.mp hnil with ⟨hc, _⟩
        exact hpok.2.2.1 hc
    have := (mem_optimize materials demands (mid,
      packMaterial mat (demands.filter fun x => decide (x.materialId = mid)))).mpr
      ⟨mat, hmat, hex, rfl⟩
    rw [hpack] at this
    exact this

/-- Witness for C10: a material whose only demand is too long still maps to
an empty bin list. -/
theorem C10_plan_keys_witness :
    materialLookup [(⟨"M", "Mat", 6000⟩ : Material)] "M" = some ⟨"M", "Mat", 6000⟩ ∧
    ("M", ([] : List Pipe)) ∈ optimize [⟨"M", "Mat", 6000⟩] [⟨"1", "P", "M", 5950⟩] := by
  refine ⟨by decide, ?_⟩
  refine (C10_plan_keys [⟨"M", "Mat", 6000⟩] [⟨"1", "P", "M", 5950⟩]).2.2 "M"
    ⟨"M", "Mat", 6000⟩ (by decide) ⟨⟨"1", "P", "M", 5950⟩, by decide, rfl⟩ ?_
  intro d hd hmid
  rcases List.mem_singleton.mp hd with rfl
  decide

/-! ## Aggregation by composite key vs. by triple -/

theorem aggKey_eq_aggKeyT (d : Demand) : aggKey d = aggKeyT (trip d) := rfl

theorem firstSeen_aggKey_eq (l : List Demand)
    (hinj : ∀ d1 ∈ l, ∀ d2 ∈ l, aggKey d1 = aggKey d2 → trip d1 = trip d2) :
    firstSeen aggKey l = (firstSeen trip l).map aggKeyT := by
  suffices h : ∀ (t s : List Demand), (∀ d ∈ t, d ∈ l) → (∀ d ∈ s, d ∈ l) →
      firstSeen aggKey s = (firstSeen trip s).map aggKeyT →
      firstSeen aggKey (s ++ t) = (firstSeen trip (s ++ t)).map aggKeyT by
    simpa using h l [] (fun d hd => hd) (by intro d hd; simp at hd) rfl
  intro t
  induction t with
  | nil => intro s _ _ heq; simpa using heq
  | cons a t ih =>
    intro s ht hs heq
    have hal : a ∈ l := ht a (List.mem_cons_self _ _)
    have hmem : aggKey a ∈ firstSeen aggKey s ↔ trip a ∈ firstSeen trip s := by
      rw [heq]
      constructor
      · intro h
        rcases List.mem_map.mp h with ⟨x, hx, hxk⟩
        rcases (mem_firstSeen trip s x).mp hx with ⟨d', hd', hdx⟩
        have hkk : aggKey d' = aggKey a := by
          rw [aggKey_eq_aggKeyT, hdx, hxk]
        have htr := hinj d' (hs d' hd') a hal hkk
        rw [← htr, hdx]
        exact hx
      · intro h
        exact List.mem_map.mpr ⟨trip a, h, rfl⟩
    have hstep : s ++ a :: t = (s ++ [a]) ++ t := by simp
    rw [hstep]
    refine ih (s ++ [a]) (fun d hd => ht d (List.mem_cons_of_mem _ hd)) ?_ ?_
    · intro d hd
      rcases List.mem_append.mp hd with hd | hd
      · exact hs d hd
      · exact (List.mem_singleton.mp hd) ▸ hal
    · rw [firstSeen_step, firstSeen_step]
      by_cases hm : trip a ∈ firstSeen trip s
      · rw [if_pos (hmem.mpr hm), if_pos hm]
        exact heq
      · rw [if_neg (fun hk => hm (hmem.mp hk)), if_neg hm, List.map_append, heq]
        rfl

theorem filter_aggKey_eq (l : List Demand)
    (hinj : ∀ d1 ∈ l, ∀ d2 ∈ l, aggKey d1 = aggKey d2 → trip d1 = trip d2)
    (d0 : Demand) (hd0 : d0 ∈ l) :
    (l.filter fun x => decide (aggKey x = aggKey d0))
      = l.filter fun x => decide (trip x = trip d0) := by
  refine List.filter_congr ?_
  intro x hx
  simp only [decide_eq_decide]
  constructor
  · exact fun h => hinj x hx d0 hd0 h
  · intro h
    rw [aggKey_eq_aggKeyT, aggKey_eq_aggKeyT, h]

/-- Claim C8 (corrected): provided distinct triples never produce the same
composite key string (as when materialIds and projects avoid `'|'`),
`aggregateDemands` returns one group per distinct `(materialId, project,
lengthMm)` triple in first-seen order, with the count and the ids of exactly
the demands bearing that triple in input order, and the empty input gives the
empty output. -/
theorem C8_aggregation (l : List Demand)
    (hinj : ∀ d1 ∈ l, ∀ d2 ∈ l, aggKey d1 = aggKey d2 → trip d1 = trip d2) :
    ((aggregateDemands l).map fun a => ((a.materialId, a.project, a.lengthMm), a.count, a.ids))
        = specAggregate l ∧
    aggregateDemands ([] : List Demand) = [] ∧
    ((aggregateDemands l).map fun a => (a.materialId, a.project, a.lengthMm)).Nodup := by
  have hmain : ((aggregateDemands l).map
      fun a => ((a.materialId, a.project, a.lengthMm), a.count, a.ids)) = specAggregate l := by
    rw [aggregateDemands_eq, mapGroups_eq_groupsSpec]
    unfold groupsSpec specAggregate
    rw [firstSeen_aggKey_eq l hinj, List.map_map, List.map_map, List.map_map]
    refine List.map_congr_left ?_
    intro t ht
    rcases (mem_firstSeen trip l t).mp ht with ⟨d0, hd0, hd0t⟩
    subst hd0t
    show ((fun a => ((a.materialId, a.project, a.lengthMm), a.count, a.ids))
        (aggOf (aggKeyT (trip d0), l.filter fun x => decide (aggKey x = aggKeyT (trip d0)))))
      = (trip d0, (l.filter fun x => decide (trip x = trip d0)).length,
          (l.filter fun x => decide (trip x = trip d0)).map Demand.id)
    rw [show (fun x => decide (aggKey x = aggKeyT (trip d0)))
        = fun x => decide (aggKey x = aggKey d0) from rfl]
    rw [filter_aggKey_eq l hinj d0 hd0]
    rcases hF : l.filter (fun x => decide (trip x = trip d0)) with _ | ⟨dh, F'⟩
    · exfalso
      have : d0 ∈ l.filter (fun x => decide (trip x = trip d0)) :=
        List.mem_filter.mpr ⟨hd0, by simp⟩
      rw [hF] at this
      simp at this
    · have hdh : dh ∈ l.filter (fun x => decide (trip x = trip d0)) := by
        rw [hF]
        exact List.mem_cons_self _ _
      have htr : trip dh = trip d0 := by
        have := (List.mem_filter.mp hdh).2
        simpa using this
      have hfields : dh.materialId = d0.materialId ∧ dh.project = d0.project
          ∧ dh.lengthMm = d0.lengthMm := by
        have h1 := congrArg Prod.fst htr
        have h2 := congrArg (fun x => x.2.1) htr
        have h3 := congrArg (fun x => x.2.2) htr
        exact ⟨h1, h2, h3⟩
      show ((dh.materialId, dh.project, dh.lengthMm), (dh :: F').length,
          (dh :: F').map Demand.id)
        = (trip d0, (dh :: F').length, (dh :: F').map Demand.id)
      rw [hfields.1, hfields.2.1, hfields.2.2]
      rfl
  refine ⟨hmain, rfl, ?_⟩
  have htrips : ((aggregateDemands l).map fun a => (a.materialId, a.project, a.lengthMm))
      = firstSeen trip l := by
    have := congrArg (List.map Prod.fst) hmain
    rw [List.map_map] at this
    unfold specAggregate at this
    rw [List.map_map] at this
    simpa [Function.comp_def] using this
  rw [htrips]
  exact firstSeen_nodup trip l

/-- Counterexample to C8 as stated: the triples `("a", "b|c", 5)` and
`("a|b", "c", 5)` differ in both `materialId` and `project`, yet both have
composite key `"a|b|c|5"`, so `aggregateDemands` merges them into one group
of count 2. -/
theorem C8_counterexample :
    (aggregateDemands [⟨"i1", "b|c", "a", 5⟩, ⟨"i2", "c", "a|b", 5⟩]).length = 1 ∧
    (aggregateDemands [⟨"i1", "b|c", "a", 5⟩, ⟨"i2", "c", "a|b", 5⟩]).map
        AggregatedDemand.count = [2] ∧
    ((⟨"i1", "b|c", "a", 5⟩ : Demand).materialId, (⟨"i1", "b|c", "a", 5⟩ : Demand).project,
        (⟨"i1", "b|c", "a", 5⟩ : Demand).lengthMm)
      ≠ ((⟨"i2", "c", "a|b", 5⟩ : Demand).materialId, (⟨"i2", "c", "a|b", 5⟩ : Demand).project,
        (⟨"i2", "c", "a|b", 5⟩ : Demand).lengthMm) := by
  refine ⟨by decide, by decide, by decide⟩

/-- Witness for C8 on a `'|'`-free input: two groups, counts 3 and 1,
distinguished by project (Scenario 5 of the spec). -/
theorem C8_aggregation_witness :
    ((aggregateDemands [⟨"1", "X", "M", 1000⟩, ⟨"2", "X", "M", 1000⟩, ⟨"3", "X", "M", 1000⟩,
        ⟨"4", "Y", "M", 1000⟩]).map
      fun a => ((a.materialId, a.project, a.lengthMm), a.count, a.ids))
        = specAggregate [⟨"1", "X", "M", 1000⟩, ⟨"2", "X", "M", 1000⟩, ⟨"3", "X", "M", 1000⟩,
            ⟨"4", "Y", "M", 1000⟩] :=
  (C8_aggregation [⟨"1", "X", "M", 1000⟩, ⟨"2", "X", "M", 1000⟩, ⟨"3", "X", "M", 1000⟩,
      ⟨"4", "Y", "M", 1000⟩] (by decide)).1

/-! ## Injectivity of `formatMm` on positive integer lengths -/

/-- A decimal digit character as produced by `digitChar`. -/
def IsDigit (c : Char) : Prop := ∃ d, d < 10 ∧ c = digitChar d

theorem digitChar_facts : ∀ i : Fin 10, digitChar i ≠ 'm' ∧ digitChar i ≠ '+' ∧
    digitChar i ≠ '.' ∧ digitChar i ≠ ' ' ∧ digitChar i ≠ '-' := by decide

theorem digitChar_fin_inj : ∀ i j : Fin 10, digitChar i = digitChar j → i = j := by decide

theorem digitChar_inj (a b : Nat) (ha : a < 10) (hb : b < 10)
    (h : digitChar a = digitChar b) : a = b := by
  have := digitChar_fin_inj ⟨a, ha⟩ ⟨b, hb⟩ h
  exact congrArg Fin.val this

theorem isDigit_ne (c : Char) (h : IsDigit c) :
    c ≠ 'm' ∧ c ≠ '+' ∧ c ≠ '.' ∧ c ≠ ' ' ∧ c ≠ '-' := by
  rcases h with ⟨d, hd, rfl⟩
  exact digitChar_facts ⟨d, hd⟩

theorem natDecimal_digits (n : Nat) : ∀ c ∈ natDecimal n, IsDigit c := by
  unfold natDecimal
  by_cases h : n = 0
  · rw [if_pos h]
    intro c hc
    rw [List.mem_singleton] at hc
    exact ⟨0, by omega, by rw [hc]; rfl⟩
  · rw [if_neg h]
    intro c hc
    rcases List.mem_map.mp hc with ⟨d, hd, hcd⟩
    exact ⟨d, Nat.digits_lt_base' (List.mem_reverse.mp hd), hcd.symm⟩

theorem natDecimal_ne_nil (n : Nat) : natDecimal n ≠ [] := by
  unfold natDecimal
  by_cases h : n = 0
  · rw [if_pos h]
    simp
  · rw [if_neg h]
    intro hc
    rw [List.map_eq_nil_iff, List.reverse_eq_nil_iff] at hc
    exact Nat.digits_ne_nil_iff_ne_zero.mpr h hc

theorem map_digitChar_inj : ∀ (L1 L2 : List Nat), (∀ x ∈ L1, x < 10) → (∀ x ∈ L2, x < 10) →
    L1.map digitChar = L2.map digitChar → L1 = L2 := by
  intro L1
  induction L1 with
  | nil =>
    intro L2 _ _ h
    cases L2 with
    | nil => rfl
    | cons y t => simp at h
  | cons x t1 ih =>
    intro L2 h1 h2 h
    cases L2 with
    | nil => simp at h
    | cons y t2 =>
      simp only [List.map_cons, List.cons.injEq] at h
      rw [ih t2 (fun z hz => h1 z (List.mem_cons_of_mem _ hz))
        (fun z hz => h2 z (List.mem_cons_of_mem _ hz)) h.2,
        digitChar_inj x y (h1 x (List.mem_cons_self _ _)) (h2 y (List.mem_cons_self _ _)) h.1]

theorem natDecimal_inj (a b : Nat) (h : natDecimal a = natDecimal b) : a = b := by
  have hzero : ∀ n : Nat, n ≠ 0 → natDecimal n ≠ ['0'] := by
    intro n hn hcon
    unfold natDecimal at hcon
    rw [if_neg hn] at hcon
    rcases hrev : (Nat.digits 10 n).reverse with _ | ⟨x, t⟩
    · rw [hrev] at hcon
      simp at hcon
    · rw [hrev] at hcon
      simp only [List.map_cons, List.cons.injEq] at hcon
      rw [List.map_eq_nil_iff] at hcon
      have hx10 : x < 10 := Nat.digits_lt_base' (List.mem_reverse.mp (by rw [hrev]; simp))
      have hx0 : x = 0 := digitChar_inj x 0 hx10 (by omega) (by rw [hcon.1]; rfl)
      have hdig : Nat.digits 10 n = [x] := by
        have := congrArg List.reverse hrev
        rw [List.reverse_reverse] at this
        rw [this, hcon.2]
        rfl
      have := Nat.ofDigits_digits 10 n
      rw [hdig, hx0] at this
      simp [Nat.ofDigits] at this
      exact hn this.symm
  by_cases ha : a = 0 <;> by_cases hb : b = 0
  · rw [ha, hb]
  · exfalso
    refine hzero b hb ?_
    rw [← h]
    unfold natDecimal
    rw [if_pos ha]
  · exfalso
    refine hzero a ha ?_
    rw [h]
    unfold natDecimal
    rw [if_pos hb]
  · unfold natDecimal at h
    rw [if_neg ha, if_neg hb] at h
    have hdigs := map_digitChar_inj _ _
      (fun x hx => Nat.digits_lt_base' (List.mem_reverse.mp hx))
      (fun x hx => Nat.digits_lt_base' (List.mem_reverse.mp hx)) h
    have := List.reverse_injective hdigs
    rw [← Nat.ofDigits_digits 10 a, ← Nat.ofDigits_digits 10 b, this]

theorem stripZeros_spec (l : List Char) :
    l = stripZeros l ++ List.replicate (l.length - (stripZeros l).length) '0' := by
  unfold stripZeros
  have hsplit : l = (l.reverse.dropWhile fun c => c == '0').reverse
      ++ (l.reverse.takeWhile fun c => c == '0').reverse := by
    conv_lhs => rw [← List.reverse_reverse l]
    rw [← List.reverse_append, List.takeWhile_append_dropWhile]
  have htake : (l.reverse.takeWhile fun c => c == '0')
      = List.replicate (l.reverse.takeWhile fun c => c == '0').length '0' := by
    refine List.eq_replicate_iff.mpr ⟨rfl, ?_⟩
    intro c hc
    have := List.mem_takeWhile_imp hc
    simpa using this
  have hlen : l.length - ((l.reverse.dropWhile fun c => c == '0').reverse).length
      = (l.reverse.takeWhile fun c => c == '0').length := by
    have h1 := congrArg List.length hsplit
    simp only [List.length_append, List.length_reverse] at h1
    simp only [List.length_reverse]
    omega
  have hrep : (l.reverse.takeWhile fun c => c == '0').reverse
      = List.replicate (l.reverse.takeWhile fun c => c == '0').length '0' := by
    conv_lhs => rw [htake]
    rw [List.reverse_replicate]
  rw [hlen]
  conv_lhs => rw [hsplit, hrep]

theorem stripZeros_inj_of_length (l1 l2 : List Char) (hlen : l1.length = l2.length)
    (h : stripZeros l1 = stripZeros l2) : l1 = l2 := by
  have h1 := stripZeros_spec l1
  have h2 := stripZeros_spec l2
  rw [h, hlen] at h1
  rw [h1, ← h2]

theorem mem_stripZeros (l : List Char) (c : Char) (h : c ∈ stripZeros l) : c ∈ l := by
  unfold stripZeros at h
  rw [List.mem_reverse] at h
  have := (List.dropWhile_sublist (fun c => c == '0') (l := l.reverse)).mem h
  rwa [List.mem_reverse] at this

theorem frac3_digits (r : Nat) (hr : r < 1000) : ∀ c ∈ frac3 r, IsDigit c := by
  intro c hc
  have hcm := mem_stripZeros _ c hc
  simp only [List.mem_cons, List.not_mem_nil, or_false] at hcm
  rcases hcm with hcm | hcm | hcm
  · exact ⟨r / 100, by omega, hcm⟩
  · exact ⟨r / 10 % 10, by omega, hcm⟩
  · exact ⟨r % 10, by omega, hcm⟩

theorem frac3_inj (r1 r2 : Nat) (h1 : r1 < 1000) (h2 : r2 < 1000)
    (h : frac3 r1 = frac3 r2) : r1 = r2 := by
  unfold frac3 at h
  have heq := stripZeros_inj_of_length _ _ (by simp) h
  simp only [List.cons.injEq, and_true] at heq
  have e1 := digitChar_inj _ _ (by omega : r1 / 100 < 10) (by omega : r2 / 100 < 10) heq.1
  have e2 := digitChar_inj _ _ (by omega : r1 / 10 % 10 < 10) (by omega : r2 / 10 % 10 < 10)
    heq.2.1
  have e3 := digitChar_inj _ _ (by omega : r1 % 10 < 10) (by omega : r2 % 10 < 10) heq.2.2
  omega

theorem count_m_of_digits (l : List Char) (h : ∀ c ∈ l, IsDigit c) : l.count 'm' = 0 := by
  rw [List.count_eq_zero]
  intro hc
  exact (isDigit_ne 'm' (h 'm' hc)).1 rfl

theorem emod_toNat_lt (mm : Int) : (mm % 1000).toNat < 1000 := by
  have h1 : 0 ≤ mm % 1000 := Int.emod_nonneg mm (by norm_num)
  have h2 : mm % 1000 < 1000 := Int.emod_lt_of_pos mm (by norm_num)
  omega

theorem formatMm_count_m_small (mm : Int) (h0 : 0 ≤ mm) (h : mm < 1000) :
    (formatMm mm).count 'm' = 2 := by
  unfold formatMm
  rw [if_neg (by omega)]
  unfold intDecimal
  rw [if_neg (by omega)]
  rw [List.count_append, count_m_of_digits _ (natDecimal_digits mm.toNat)]
  rfl

theorem formatMm_count_m_large (mm : Int) (h : 1000 ≤ mm) :
    (formatMm mm).count 'm' = 1 := by
  unfold formatMm
  rw [if_pos h]
  rw [List.count_append, List.count_append,
    count_m_of_digits _ (natDecimal_digits (mm / 1000).toNat)]
  by_cases hr : (mm % 1000).toNat = 0
  · rw [if_pos hr]
    rfl
  · rw [if_neg hr]
    rw [List.count_cons, count_m_of_digits _ (frac3_digits _ (emod_toNat_lt mm))]
    rfl

theorem split_at_dot : ∀ (D1 D2 A B : List Char),
    (∀ c ∈ D1, c ≠ '.') → (∀ c ∈ D2, c ≠ '.') →
    (A = [] ∨ ∃ F, A = '.' :: F) → (B = [] ∨ ∃ F, B = '.' :: F) →
    D1 ++ A = D2 ++ B → D1 = D2 ∧ A = B := by
  intro D1
  induction D1 with
  | nil =>
    intro D2 A B _ hD2 hA hB heq
    cases D2 with
    | nil => exact ⟨rfl, by simpa using heq⟩
    | cons c2 t2 =>
      exfalso
      rw [List.nil_append] at heq
      rcases hA with hA | ⟨F, hA⟩
      · rw [hA] at heq
        have := congrArg List.length heq
        simp at this
      · rw [hA] at heq
        rw [List.cons_append] at heq
        have hc2 : c2 = '.' := by
          have := congrArg (fun l => l.head?) heq
          simpa using this.symm
        exact hD2 c2 (List.mem_cons_self _ _) hc2
  | cons c1 t1 ih =>
    intro D2 A B hD1 hD2 hA hB heq
    cases D2 with
    | nil =>
      exfalso
      rw [List.nil_append] at heq
      rcases hB with hB | ⟨F, hB⟩
      · rw [hB] at heq
        have := congrArg List.length heq
        simp at this
      · rw [hB] at heq
        rw [List.cons_append] at heq
        have hc1 : c1 = '.' := by
          have := congrArg (fun l => l.head?) heq
          simpa using this
        exact hD1 c1 (List.mem_cons_self _ _) hc1
    | cons c2 t2 =>
      simp only [List.cons_append, List.cons.injEq] at heq
      rcases ih t2 A B (fun c hc => hD1 c (List.mem_cons_of_mem _ hc))
        (fun c hc => hD2 c (List.mem_cons_of_mem _ hc)) hA hB heq.2 with ⟨ht, hab⟩
      exact ⟨by rw [heq.1, ht], hab⟩

theorem natDecimal_no_dot (n : Nat) : ∀ c ∈ natDecimal n, c ≠ '.' :=
  fun c hc => (isDigit_ne c (natDecimal_digits n c hc)).2.2.1

theorem formatMm_inj_pos (m1 m2 : Int) (h1 : 0 < m1) (h2 : 0 < m2)
    (h : formatMm m1 = formatMm m2) : m1 = m2 := by
  by_cases hb1 : 1000 ≤ m1 <;> by_cases hb2 : 1000 ≤ m2
  · -- both large
    unfold formatMm at h
    rw [if_pos hb1, if_pos hb2] at h
    have hbody := (List.append_inj' h rfl).1
    have hsplit := split_at_dot _ _ _ _
      (natDecimal_no_dot (m1 / 1000).toNat) (natDecimal_no_dot (m2 / 1000).toNat)
      (by by_cases hr : (m1 % 1000).toNat = 0
          · rw [if_pos hr]; exact Or.inl rfl
          · rw [if_neg hr]; exact Or.inr ⟨_, rfl⟩)
      (by by_cases hr : (m2 % 1000).toNat = 0
          · rw [if_pos hr]; exact Or.inl rfl
          · rw [if_neg hr]; exact Or.inr ⟨_, rfl⟩)
      hbody
    have hq : (m1 / 1000).toNat = (m2 / 1000).toNat := natDecimal_inj _ _ hsplit.1
    have hr : (m1 % 1000).toNat = (m2 % 1000).toNat := by
      have hfrac := hsplit.2
      by_cases hr1 : (m1 % 1000).toNat = 0 <;> by_cases hr2 : (m2 % 1000).toNat = 0
      · omega
      · rw [if_pos hr1, if_neg hr2] at hfrac
        have := congrArg List.length hfrac
        simp at this
      · rw [if_neg hr1, if_pos hr2] at hfrac
        have := congrArg List.length hfrac
        simp at this
      · rw [if_neg hr1, if_neg hr2] at hfrac
        simp only [List.cons.injEq, true_and] at hfrac
        exact frac3_inj _ _ (emod_toNat_lt m1) (emod_toNat_lt m2) hfrac
    have e1 := Int.ediv_add_emod m1 1000
    have e2 := Int.ediv_add_emod m2 1000
    have hq' : m1 / 1000 = m2 / 1000 := by
      have q1 : 0 ≤ m1 / 1000 := Int.ediv_nonneg (by omega) (by norm_num)
      have q2 : 0 ≤ m2 / 1000 := Int.ediv_nonneg (by omega) (by norm_num)
      omega
    have hr' : m1 % 1000 = m2 % 1000 := by
      have r1 : 0 ≤ m1 % 1000 := Int.emod_nonneg m1 (by norm_num)
      have r2 : 0 ≤ m2 % 1000 := Int.emod_nonneg m2 (by norm_num)
      omega
    omega
  · exfalso
    have c1 := formatMm_count_m_large m1 hb1
    have c2 := formatMm_count_m_small m2 (by omega) (by omega)
    rw [h, c2] at c1
    cases c1
  · exfalso
    have c1 := formatMm_count_m_small m1 (by omega) (by omega)
    have c2 := formatMm_count_m_large m2 hb2
    rw [h, c2] at c1
    cases c1
  · -- both small
    unfold formatMm at h
    rw [if_neg hb1, if_neg hb2] at h
    unfold intDecimal at h
    rw [if_neg (by omega), if_neg (by omega)] at h
    have := natDecimal_inj _ _ (List.append_inj' h rfl).1
    omega

theorem formatMm_no_plus (mm : Int) (h : 0 < mm) : '+' ∉ formatMm mm := by
  intro hc
  unfold formatMm at hc
  by_cases hb : 1000 ≤ mm
  · rw [if_pos hb] at hc
    rcases List.mem_append.mp hc with hc | hc
    · rcases List.mem_append.mp hc with hc | hc
      · exact (isDigit_ne _ (natDecimal_digits _ _ hc)).2.1 rfl
      · by_cases hr : (mm % 1000).toNat = 0
        · rw [if_pos hr] at hc
          cases hc
        · rw [if_neg hr] at hc
          rcases List.mem_cons.mp hc with hc | hc
          · cases hc
          · exact (isDigit_ne _ (frac3_digits _ (emod_toNat_lt mm) _ hc)).2.1 rfl
    · rcases List.mem_cons.mp hc with hc | hc
      · cases hc
      · rcases List.mem_cons.mp hc with hc | hc
        · cases hc
        · cases hc
  · rw [if_neg hb] at hc
    unfold intDecimal at hc
    rw [if_neg (by omega)] at hc
    rcases List.mem_append.mp hc with hc | hc
    · exact (isDigit_ne _ (natDecimal_digits _ _ hc)).2.1 rfl
    · rcases List.mem_cons.mp hc with hc | hc
      · cases hc
      · rcases List.mem_cons.mp hc with hc | hc
        · cases hc
        · rcases List.mem_cons.mp hc with hc | hc
          · cases hc
          · cases hc

theorem formatMm_ne_nil (mm : Int) : formatMm mm ≠ [] := by
  intro hc
  unfold formatMm at hc
  by_cases hb : 1000 ≤ mm
  · rw [if_pos hb] at hc
    have := congrArg List.length hc
    simp at this
  · rw [if_neg hb] at hc
    have := congrArg List.length hc
    simp at this

theorem sep_split : ∀ (t1 t2 a b : List Char), '+' ∉ t1 → '+' ∉ t2 →
    t1 ++ ' ' :: '+' :: ' ' :: a = t2 ++ ' ' :: '+' :: ' ' :: b → t1 = t2 ∧ a = b := by
  intro t1
  induction t1 with
  | nil =>
    intro t2 a b _ h2 heq
    cases t2 with
    | nil =>
      refine ⟨rfl, ?_⟩
      simpa using heq
    | cons c2 t2' =>
      exfalso
      simp only [List.nil_append, List.cons_append, List.cons.injEq] at heq
      cases t2' with
      | nil =>
        simp only [List.nil_append, List.cons.injEq] at heq
        exact absurd heq.2.1 (by decide)
      | cons c2' t2'' =>
        simp only [List.cons_append, List.cons.injEq] at heq
        exact h2 (by rw [heq.2.1]; exact List.mem_cons_of_mem _ (List.mem_cons_self _ _))
  | cons c1 t1' ih =>
    intro t2 a b h1 h2 heq
    cases t2 with
    | nil =>
      exfalso
      simp only [List.nil_append, List.cons_append, List.cons.injEq] at heq
      cases t1' with
      | nil =>
        simp only [List.nil_append, List.cons.injEq] at heq
        exact absurd heq.2.1 (by decide)
      | cons c1' t1'' =>
        simp only [List.cons_append, List.cons.injEq] at heq
        exact h1 (by rw [heq.2.1]; exact List.mem_cons_of_mem _ (List.mem_cons_self _ _))
    | cons c2 t2' =>
      simp only [List.cons_append, List.cons.injEq] at heq
      rcases ih t2' a b (fun hc => h1 (List.mem_cons_of_mem _ hc))
        (fun hc => h2 (List.mem_cons_of_mem _ hc)) heq.2 with ⟨ht, hab⟩
      exact ⟨by rw [heq.1, ht], hab⟩

theorem joinPlus_inj : ∀ (l1 l2 : List (List Char)),
    (∀ t ∈ l1, '+' ∉ t ∧ t ≠ []) → (∀ t ∈ l2, '+' ∉ t ∧ t ≠ []) →
    joinPlus l1 = joinPlus l2 → l1 = l2 := by
  intro l1
  induction l1 with
  | nil =>
    intro l2 _ h2 heq
    cases l2 with
    | nil => rfl
    | cons t2 rest2 =>
      exfalso
      cases rest2 with
      | nil =>
        exact (h2 t2 (List.mem_cons_self _ _)).2 (by simpa [joinPlus] using heq.symm)
      | cons t2' ts2 =>
        rw [show joinPlus [] = [] from rfl, show joinPlus (t2 :: t2' :: ts2)
          = t2 ++ ' ' :: '+' :: ' ' :: joinPlus (t2' :: ts2) from rfl] at heq
        have := congrArg List.length heq
        simp at this
        omega
  | cons t1 rest1 ih =>
    intro l2 h1 h2 heq
    cases l2 with
    | nil =>
      exfalso
      cases rest1 with
      | nil =>
        exact (h1 t1 (List.mem_cons_self _ _)).2 (by simpa [joinPlus] using heq)
      | cons t1' ts1 =>
        rw [show joinPlus (t1 :: t1' :: ts1)
          = t1 ++ ' ' :: '+' :: ' ' :: joinPlus (t1' :: ts1) from rfl,
          show joinPlus [] = [] from rfl] at heq
        have := congrArg List.length heq
        simp at this
    | cons t2 rest2 =>
      cases rest1 with
      | nil =>
        cases rest2 with
        | nil =>
          rw [show joinPlus [t1] = t1 from rfl, show joinPlus [t2] = t2 from rfl] at heq
          rw [heq]
        | cons t2' ts2 =>
          exfalso
          rw [show joinPlus [t1] = t1 from rfl, show joinPlus (t2 :: t2' :: ts2)
            = t2 ++ ' ' :: '+' :: ' ' :: joinPlus (t2' :: ts2) from rfl] at heq
          refine (h1 t1 (List.mem_cons_self _ _)).1 ?_
          rw [heq]
          exact List.mem_append.mpr (Or.inr (List.mem_cons_of_mem _ (List.mem_cons_self _ _)))
      | cons t1' ts1 =>
        cases rest2 with
        | nil =>
          exfalso
          rw [show joinPlus [t2] = t2 from rfl, show joinPlus (t1 :: t1' :: ts1)
            = t1 ++ ' ' :: '+' :: ' ' :: joinPlus (t1' :: ts1) from rfl] at heq
          refine (h2 t2 (List.mem_cons_self _ _)).1 ?_
          rw [← heq]
          exact List.mem_append.mpr (Or.inr (List.mem_cons_of_mem _ (List.mem_cons_self _ _)))
        | cons t2' ts2 =>
          rw [show joinPlus (t1 :: t1' :: ts1)
            = t1 ++ ' ' :: '+' :: ' ' :: joinPlus (t1' :: ts1) from rfl,
            show joinPlus (t2 :: t2' :: ts2)
            = t2 ++ ' ' :: '+' :: ' ' :: joinPlus (t2' :: ts2) from rfl] at heq
          rcases sep_split t1 t2 _ _ (h1 t1 (List.mem_cons_self _ _)).1
            (h2 t2 (List.mem_cons_self _ _)).1 heq with ⟨ht, hrest⟩
          have := ih (t2' :: ts2) (fun t ht => h1 t (List.mem_cons_of_mem _ ht))
            (fun t ht => h2 t (List.mem_cons_of_mem _ ht)) hrest
          rw [ht, this]

theorem map_formatMm_inj : ∀ (l1 l2 : List Int), (∀ x ∈ l1, 0 < x) → (∀ x ∈ l2, 0 < x) →
    l1.map formatMm = l2.map formatMm → l1 = l2 := by
  intro l1
  induction l1 with
  | nil =>
    intro l2 _ _ h
    cases l2 with
    | nil => rfl
    | cons y t => simp at h
  | cons x t1 ih =>
    intro l2 h1 h2 h
    cases l2 with
    | nil => simp at h
    | cons y t2 =>
      simp only [List.map_cons, List.cons.injEq] at h
      rw [formatMm_inj_pos x y (h1 x (List.mem_cons_self _ _)) (h2 y (List.mem_cons_self _ _))
          h.1,
        ih t2 (fun z hz => h1 z (List.mem_cons_of_mem _ hz))
          (fun z hz => h2 z (List.mem_cons_of_mem _ hz)) h.2]

theorem patternKey_eq_joinPlus (p : Pipe) :
    patternKey p.cuts = joinPlus ((cutLens p).map formatMm) := by
  unfold patternKey cutLens
  rw [List.map_map]
  rfl

theorem patternKey_eq_iff (p1 p2 : Pipe)
    (h1 : ∀ c ∈ p1.cuts, 0 < c.lengthMm) (h2 : ∀ c ∈ p2.cuts, 0 < c.lengthMm) :
    patternKey p1.cuts = patternKey p2.cuts ↔ cutLens p1 = cutLens p2 := by
  have hl1 : ∀ x ∈ cutLens p1, 0 < x := by
    intro x hx
    rcases List.mem_map.mp hx with ⟨c, hc, hcx⟩
    exact hcx ▸ h1 c hc
  have hl2 : ∀ x ∈ cutLens p2, 0 < x := by
    intro x hx
    rcases List.mem_map.mp hx with ⟨c, hc, hcx⟩
    exact hcx ▸ h2 c hc
  constructor
  · intro h
    rw [patternKey_eq_joinPlus, patternKey_eq_joinPlus] at h
    have htok : ∀ (l : List Int), (∀ x ∈ l, 0 < x) →
        ∀ t ∈ l.map formatMm, '+' ∉ t ∧ t ≠ [] := by
      intro l hl t ht
      rcases List.mem_map.mp ht with ⟨x, hx, hxt⟩
      exact hxt ▸ ⟨formatMm_no_plus x (hl x hx), formatMm_ne_nil x⟩
    have := joinPlus_inj _ _ (htok _ hl1) (htok _ hl2) h
    exact map_formatMm_inj _ _ hl1 hl2 this
  · intro h
    rw [patternKey_eq_joinPlus, patternKey_eq_joinPlus, h]

/-! ## The cut-pattern count map -/

theorem bumpPattern_eq (gs : List (List Char × List Pipe)) (p : Pipe) :
    bumpPattern (gs.map fun g => (g.1, g.2.length)) (patternKey p.cuts)
      = (mapInsert (fun q => patternKey q.cuts) gs p).map fun g => (g.1, g.2.length) := by
  induction gs with
  | nil => rfl
  | cons g gs' ih =>
    simp only [List.map_cons, bumpPattern, mapInsert]
    by_cases hk : g.1 = patternKey p.cuts
    · rw [if_pos hk, if_pos hk, List.map_cons]
      simp
    · rw [if_neg hk, if_neg hk, List.map_cons, ih]

theorem patternCounts_eq (pipes : List Pipe) :
    patternCounts pipes
      = (mapGroups (fun q => patternKey q.cuts) pipes).map fun g => (g.1, g.2.length) := by
  suffices h : ∀ (t : List Pipe) (gs : List (List Char × List Pipe)),
      t.foldl (fun acc p => bumpPattern acc (patternKey p.cuts)) (gs.map fun g => (g.1, g.2.length))
        = (t.foldl (mapInsert fun q => patternKey q.cuts) gs).map fun g => (g.1, g.2.length) by
    simpa using h pipes []
  intro t
  induction t with
  | nil => intro gs; rfl
  | cons p t ih =>
    intro gs
    simp only [List.foldl_cons]
    rw [bumpPattern_eq gs p]
    exact ih _

/-- Claim C9 (confirmed): within each material of the plan, two bins fall
under the same pattern key iff their ordered cut-length sequences are equal,
and every pattern's count is the number of that material's bins with exactly
that ordered sequence. -/
theorem C9_patterns (materials : List Material) (demands : List Demand)
    (hd : ∀ d ∈ demands, 0 < d.lengthMm) :
    ∀ e ∈ optimize materials demands,
      (∀ p1 ∈ e.2, ∀ p2 ∈ e.2,
        (patternKey p1.cuts = patternKey p2.cuts ↔ cutLens p1 = cutLens p2)) ∧
      (∀ kc ∈ patternCounts e.2, ∃ p0 ∈ e.2, patternKey p0.cuts = kc.1 ∧
        kc.2 = e.2.countP fun q => decide (cutLens q = cutLens p0)) := by
  intro e he
  have hpos : ∀ p ∈ e.2, ∀ c ∈ p.cuts, 0 < c.lengthMm := fun p hp c hc =>
    hd c (mem_cuts_optimize materials demands e he p hp c hc)
  constructor
  · intro p1 hp1 p2 hp2
    exact patternKey_eq_iff p1 p2 (hpos p1 hp1) (hpos p2 hp2)
  · intro kc hkc
    rw [patternCounts_eq] at hkc
    rcases List.mem_map.mp hkc with ⟨g, hg, hgk⟩
    rcases (mem_mapGroups _ e.2 g).mp hg with ⟨hgf, hg2⟩
    rcases (mem_firstSeen _ e.2 g.1).mp hgf with ⟨p0, hp0, hp0k⟩
    refine ⟨p0, hp0, ?_, ?_⟩
    · rw [← hgk]
      exact hp0k
    · rw [← hgk]
      show g.2.length = e.2.countP fun q => decide (cutLens q = cutLens p0)
      rw [hg2, ← List.countP_eq_length_filter]
      refine List.countP_congr ?_
      intro q hq
      simp only [decide_eq_true_eq]
      rw [← hp0k]
      exact patternKey_eq_iff q p0 (hpos q hq) (hpos p0 hp0)

/-- Witness for C9 at the Scenario-1 input. -/
theorem C9_patterns_witness :
    (∀ d ∈ [(⟨"1", "P", "M", 2500⟩ : Demand), ⟨"2", "P", "M", 2500⟩, ⟨"3", "P", "M", 2500⟩],
      0 < d.lengthMm) ∧
    (∀ e ∈ optimize [⟨"M", "Mat", 6000⟩]
        [⟨"1", "P", "M", 2500⟩, ⟨"2", "P", "M", 2500⟩, ⟨"3", "P", "M", 2500⟩],
      (∀ p1 ∈ e.2, ∀ p2 ∈ e.2,
        (patternKey p1.cuts = patternKey p2.cuts ↔ cutLens p1 = cutLens p2)) ∧
      (∀ kc ∈ patternCounts e.2, ∃ p0 ∈ e.2, patternKey p0.cuts = kc.1 ∧
        kc.2 = e.2.countP fun q => decide (cutLens q = cutLens p0))) :=
  ⟨by decide, C9_patterns [⟨"M", "Mat", 6000⟩]
    [⟨"1", "P", "M", 2500⟩, ⟨"2", "P", "M", 2500⟩, ⟨"3", "P", "M", 2500⟩] (by decide)⟩

/-- Witness for C4 at the Scenario-1 input. -/
theorem C4_determinism_witness :
    optimize [⟨"M", "Mat", 6000⟩] [⟨"1", "P", "M", 2500⟩]
      = optimize [⟨"M", "Mat", 6000⟩] [⟨"1", "P", "M", 2500⟩] :=
  C4_determinism [⟨"M", "Mat", 6000⟩] [⟨"M", "Mat", 6000⟩]
    [⟨"1", "P", "M", 2500⟩] [⟨"1", "P", "M", 2500⟩] rfl rfl

end PipeOptimizer
